import Mathlib

/-!
Verification of the MOE idiom scraper (dictionary.py) against its
natural-language specification.

The program is a batch crawler: it iterates a numeric ID space with a fixed
stride, fetches one page per ID, extracts fields from a labelled table,
cleans them with a family of regex passes, and writes each entry as JSON,
TXT and an appended JSONL corpus, stopping after a run of consecutive
"not found" responses.

Strings are modelled as `List Char`.  Each Python regex substitution is
embedded as a left-to-right scanner whose behaviour was derived from the
leftmost, non-overlapping, greedy-with-backtracking semantics of `re.sub`;
the derivations are recorded in the doc comments.  File IO is modelled by an
explicit file-system state, and the network by an outcome environment fed to
the main loop one iteration at a time.
-/

/-- Strings of the Python program, modelled as lists of characters. -/
abbrev Str := List Char

/-- Python `\s` for unicode strings: the ASCII whitespace characters
together with the characters of the Unicode White_Space set that `re`
treats as whitespace (and `str.strip()` strips).  Note U+200B is *not*
whitespace in Python. -/
def isPySpace (c : Char) : Bool :=
  (0x9 ≤ c.toNat && c.toNat ≤ 0xD) || c.toNat == 0x20 ||
  (0x1C ≤ c.toNat && c.toNat ≤ 0x1F) || c.toNat == 0x85 || c.toNat == 0xA0 ||
  c.toNat == 0x1680 || (0x2000 ≤ c.toNat && c.toNat ≤ 0x200A) ||
  c.toNat == 0x2028 || c.toNat == 0x2029 || c.toNat == 0x202F ||
  c.toNat == 0x205F || c.toNat == 0x3000

/-- The character class of `norm_space`'s first substitution,
space, tab, U+00A0 and U+200B (dictionary.py line 54). -/
def isHSpace (c : Char) : Bool :=
  c.toNat == 0x20 || c.toNat == 0x9 || c.toNat == 0xA0 || c.toNat == 0x200B

/-- The constant `BPMF` (dictionary.py line 35): bopomofo U+3105-U+3129,
the extension U+31A0-U+31BA, and the tone marks U+02D9, U+02CA, U+02C7,
U+02CB. -/
def isBPMF (c : Char) : Bool :=
  (0x3105 ≤ c.toNat && c.toNat ≤ 0x3129) ||
  (0x31A0 ≤ c.toNat && c.toNat ≤ 0x31BA) ||
  c.toNat == 0x2D9 || c.toNat == 0x2CA || c.toNat == 0x2C7 || c.toNat == 0x2CB

/-- The constant `CJK` (dictionary.py line 36): U+4E00-U+9FFF and
U+3400-U+4DBF. -/
def isCJK (c : Char) : Bool :=
  (0x4E00 ≤ c.toNat && c.toNat ≤ 0x9FFF) ||
  (0x3400 ≤ c.toNat && c.toNat ≤ 0x4DBF)

/-- Python `\w` (unicode word character), modelled over the character ranges
this corpus can contain: ASCII alphanumerics and underscore, the CJK blocks
of the `CJK` constant, the bopomofo letter blocks, and the modifier letters
U+02B0-U+02D1 (so the tone marks ˊ ˇ ˋ are word characters, the dot ˙ is
not). -/
def isWordChar (c : Char) : Bool :=
  (0x30 ≤ c.toNat && c.toNat ≤ 0x39) || (0x41 ≤ c.toNat && c.toNat ≤ 0x5A) ||
  (0x61 ≤ c.toNat && c.toNat ≤ 0x7A) || c.toNat == 0x5F ||
  isCJK c || (0x3105 ≤ c.toNat && c.toNat ≤ 0x3129) ||
  (0x31A0 ≤ c.toNat && c.toNat ≤ 0x31BA) ||
  (0x2B0 ≤ c.toNat && c.toNat ≤ 0x2D1)

/-- ASCII decimal digit, Python `\d` over this corpus. -/
def isDigit (c : Char) : Bool := 0x30 ≤ c.toNat && c.toNat ≤ 0x39

/-- Python `str.strip()`: drop leading and trailing whitespace. -/
def pyStrip (s : Str) : Str :=
  ((s.dropWhile isPySpace).reverse.dropWhile isPySpace).reverse

/-- Python `str.strip(ch)` for a single character, used by `safe_slug`
(line 451, stripping underscores). -/
def pyStripChar (x : Char) (s : Str) : Str :=
  ((s.dropWhile (fun c => c == x)).reverse.dropWhile (fun c => c == x)).reverse

/-! ### A scanner for class-run collapsing substitutions

`re.sub(CLASS ++ "+", y, s)` (and `re.sub(x ++ "{2,}", x, s)`, whose result
is the same as collapsing every run of `x` since a run of length one is
returned unchanged) replaces each maximal run of characters of the class
with the single character `y`.  The scanner emits `y` at the first
character of a run and skips the rest of the run. -/

/-- Scanner for class-run collapsing: `inRun` records whether the previous
character belonged to the class. -/
def classRunsGo (cls : Char → Bool) (y : Char) (inRun : Bool) : Str → Str
  | [] => []
  | c :: rest =>
      if cls c then
        if inRun then classRunsGo cls y true rest
        else y :: classRunsGo cls y true rest
      else c :: classRunsGo cls y false rest

/-- The effect of `re.sub(x ++ "{2,}", x, s)`: every maximal run of `x`
becomes a single `x` (used at lines 60, 83 and 450). -/
def collapseRuns (x : Char) (s : Str) : Str :=
  classRunsGo (fun c => c == x) x false s

/-- First pass of `norm_space` (line 54): each maximal run of
space/tab/U+00A0/U+200B is replaced by a single ASCII space. -/
def nsCollapseH (s : Str) : Str := classRunsGo isHSpace ' ' false s

/-- Second pass of `norm_space` (line 55): the pattern is a whitespace run
ending at a newline, and with greedy backtracking the leftmost match inside
a maximal whitespace run covers the run up to its last newline, which the
replacement keeps.  Character by character: a whitespace character is
deleted exactly when a newline follows it later in its own whitespace
run. -/
def nsDropBeforeNl : Str → Str
  | [] => []
  | c :: rest =>
      if isPySpace c && (rest.takeWhile isPySpace).contains '\n' then
        nsDropBeforeNl rest
      else c :: nsDropBeforeNl rest

/-- The function `norm_space` (dictionary.py lines 52-56). -/
def norm_space (s : Str) : Str :=
  if s = [] then s else pyStrip (nsDropBeforeNl (nsCollapseH s))

/-- The function `rm_blanklines` (lines 58-60):
collapse newline runs in the stripped string, behind an emptiness guard. -/
def rm_blanklines (s : Str) : Str :=
  if s = [] then s else collapseRuns '\n' (pyStrip s)

/-- The function `strip_newlines` (lines 62-63): remove every newline. -/
def strip_newlines (s : Str) : Str := s.filter (fun c => !(c == '\n'))

/-! ### A scanner for whitespace-run substitutions between character classes

Several passes of dictionary.py substitute a whitespace run that sits after
a character of one class and/or before a character of another:

* `condense_zhuyin` (line 67): run between two BPMF characters, deleted;
* `strip_bpmf_adjacent_newlines` (lines 71-72): run containing a newline
  after a BPMF character (no condition on what follows), and run containing
  a newline before a BPMF character, deleted;
* `newline_to_cjk_comma` (line 81): run containing a newline between a
  CJK-or-`]` character and a CJK-or-opening-quote character, replaced by a
  fullwidth comma;
* three of the four passes of `fix_inline_markers_and_quotes` (lines
  89-91).

In every such pattern the whitespace part is `\s+`, `\s*\n+\s*` or
`\s*\n\s*`: with greedy matching and backtracking it matches exactly a
maximal whitespace run that is nonempty (respectively: contains at least
one newline), because any shorter candidate leaves a whitespace character
where the pattern next requires a non-whitespace one.  Lookarounds inspect
the original string, and a consumed flanking character of a replaced run
cannot overlap a later match in any of these passes, so one left-to-right
scan implements the substitution.

The scanner carries `flanked` (whether the last non-whitespace character
seen was in the `pre` class; the initial value encodes whether a match may
start at the beginning of the string) and `pending` (the whitespace run
currently being read).  `endOk` tells whether a match may end at the end of
the string (true exactly for the patterns with no trailing class). -/

def runSubGo (wsP pre post : Char → Bool) (cond : Str → Bool) (repl : Str)
    (endOk : Bool) (flanked : Bool) (pending : Str) : Str → Str
  | [] => if endOk && flanked && cond pending then repl else pending
  | c :: rest =>
      if wsP c then runSubGo wsP pre post cond repl endOk flanked (pending ++ [c]) rest
      else if flanked && post c && cond pending then
        repl ++ c :: runSubGo wsP pre post cond repl endOk (pre c) [] rest
      else pending ++ c :: runSubGo wsP pre post cond repl endOk (pre c) [] rest

/-- Whether a whitespace run contains a newline: the condition the patterns
built from `\s*\n+\s*` and `\s*\n\s*` put on the run they consume. -/
def hasNl (ws : Str) : Bool := ws.contains '\n'

/-- The function `condense_zhuyin` (lines 65-67): delete every nonempty
whitespace run between two BPMF characters. -/
def condense_zhuyin (s : Str) : Str :=
  if s = [] then s
  else runSubGo isPySpace isBPMF isBPMF (fun ws => !ws.isEmpty) [] false false [] s

/-- The function `strip_bpmf_adjacent_newlines` (lines 69-73): first delete
every newline-containing whitespace run that follows a BPMF character, then
every newline-containing whitespace run that precedes one. -/
def strip_bpmf_adjacent_newlines (s : Str) : Str :=
  if s = [] then s
  else
    runSubGo isPySpace (fun _ => true) isBPMF hasNl [] false true []
      (runSubGo isPySpace isBPMF (fun _ => true) hasNl [] true false [] s)

/-- The class `[CJK、]]` on the left of `newline_to_cjk_comma`'s pattern
(line 81): a CJK character or a closing square bracket. -/
def isCjkOrRBracket (c : Char) : Bool := isCJK c || c == ']'

/-- The class on the right of `newline_to_cjk_comma`'s pattern (line 81):
a CJK character or one of the opening quotes and brackets. -/
def isCjkOrOpen (c : Char) : Bool :=
  isCJK c || c == '“' || c == '「' || c == '『' || c == '（' || c == '('

/-- The function `newline_to_cjk_comma` (lines 79-84): replace each
newline-containing whitespace run between a CJK-or-`]` character and a
CJK-or-opening character by a fullwidth comma, delete the remaining
newlines, and collapse runs of fullwidth commas. -/
def newline_to_cjk_comma (s : Str) : Str :=
  if s = [] then s
  else
    collapseRuns '，'
      (((runSubGo isPySpace isCjkOrRBracket isCjkOrOpen hasNl ['，'] false false [] s).filter
        (fun c => !(c == '\n'))))

/-- The inline markers of `fix_inline_markers_and_quotes` (line 88). -/
def isMarker (c : Char) : Bool := c == '＃' || c == '△'

/-- The opening quotes and brackets of `fix_inline_markers_and_quotes`
(lines 89-90). -/
def isOpenQuote (c : Char) : Bool :=
  c == '「' || c == '『' || c == '（' || c == '(' || c == '《'

/-- The closing quotes and brackets of `fix_inline_markers_and_quotes`
(line 91). -/
def isCloseQuote (c : Char) : Bool :=
  c == '」' || c == '』' || c == '）' || c == ')' || c == '》'

/-- First pass of `fix_inline_markers_and_quotes` (line 88): a newline,
optional whitespace, a marker and optional trailing whitespace become just
the marker.  The trailing `\s*` is greedy, so the whole following
whitespace run is consumed with the match. -/
def fixMarkerAfterNl : Str → Str
  | [] => []
  | c :: rest =>
      let t := rest.dropWhile isPySpace
      if c = '\n' ∧ t ≠ [] ∧ isMarker t.headI then
        t.headI :: fixMarkerAfterNl (t.tail.dropWhile isPySpace)
      else c :: fixMarkerAfterNl rest
termination_by s => s.length
decreasing_by
  all_goals simp_wf
  have h1 : (rest.dropWhile isPySpace).length ≤ rest.length :=
    (List.dropWhile_sublist isPySpace).length_le
  have h2 : ((rest.dropWhile isPySpace).tail.dropWhile isPySpace).length ≤
      (rest.dropWhile isPySpace).tail.length :=
    (List.dropWhile_sublist isPySpace).length_le
  have h3 : (rest.dropWhile isPySpace).tail.length =
      (rest.dropWhile isPySpace).length - 1 := List.length_tail _
  omega

/-- The function `fix_inline_markers_and_quotes` (lines 86-92), four passes
in the source order. -/
def fix_inline_markers_and_quotes (s : Str) : Str :=
  if s = [] then s
  else
    runSubGo isPySpace (fun _ => true) isCloseQuote hasNl [] false true []
      (runSubGo isPySpace isOpenQuote (fun _ => true) hasNl [] true false []
        (runSubGo isPySpace isMarker isOpenQuote hasNl [] false false []
          (fixMarkerAfterNl s)))

/-- Scanner of `replace_arrow_notes`: at a newline, skip whitespace, read
at least one digit, skip whitespace, and on `>` or `〉` emit the digits in
square brackets. -/
def arrowGo : Str → Str
  | [] => []
  | c :: rest =>
      let t := rest.dropWhile isPySpace
      let ds := t.takeWhile isDigit
      let u := (t.drop ds.length).dropWhile isPySpace
      if c = '\n' ∧ ¬ds = [] ∧ ¬u = [] ∧ (u.headI = '>' ∨ u.headI = '〉') then
        '[' :: (ds ++ ']' :: arrowGo u.tail)
      else c :: arrowGo rest
termination_by s => s.length
decreasing_by
  all_goals simp_wf
  have h1 : (rest.dropWhile isPySpace).length ≤ rest.length :=
    (List.dropWhile_sublist isPySpace).length_le
  have h2 : (((rest.dropWhile isPySpace).drop
        ((rest.dropWhile isPySpace).takeWhile isDigit).length).dropWhile isPySpace).length ≤
      ((rest.dropWhile isPySpace).drop
        ((rest.dropWhile isPySpace).takeWhile isDigit).length).length :=
    (List.dropWhile_sublist isPySpace).length_le
  have h3 : ((rest.dropWhile isPySpace).drop
        ((rest.dropWhile isPySpace).takeWhile isDigit).length).length =
      (rest.dropWhile isPySpace).length -
        ((rest.dropWhile isPySpace).takeWhile isDigit).length :=
    List.length_drop _ _
  rename_i hcond
  obtain ⟨-, hds, hu, -⟩ := hcond
  have h4 : 0 < ((rest.dropWhile isPySpace).takeWhile isDigit).length := by
    cases hq : (rest.dropWhile isPySpace).takeWhile isDigit with
    | nil => exact absurd hq hds
    | cons a l => simp
  have h5 : 0 < (((rest.dropWhile isPySpace).drop
        ((rest.dropWhile isPySpace).takeWhile isDigit).length).dropWhile isPySpace).length := by
    cases hq : ((rest.dropWhile isPySpace).drop
        ((rest.dropWhile isPySpace).takeWhile isDigit).length).dropWhile isPySpace with
    | nil => exact absurd hq hu
    | cons a l => simp
  omega

/-- The function `replace_arrow_notes` (lines 75-77): a newline, optional
whitespace, digits, optional whitespace and `>` or `〉` become the digits in
square brackets. -/
def replace_arrow_notes (s : Str) : Str :=
  if s = [] then s else arrowGo s

/-! ### Line splitting and the source/notes machinery of `parse_idiom` -/

/-- The line boundaries of Python `str.splitlines`. -/
def isLineBoundary (c : Char) : Bool :=
  c == '\n' || c == '\r' || c.toNat == 0xB || c.toNat == 0xC ||
  c.toNat == 0x1C || c.toNat == 0x1D || c.toNat == 0x1E || c.toNat == 0x85 ||
  c.toNat == 0x2028 || c.toNat == 0x2029

/-- Python `str.splitlines()`: split at every line boundary, a CRLF pair
counting as one boundary, with no entry for a trailing boundary. -/
def splitlinesPy (s : Str) : List Str :=
  if h0 : s = [] then []
  else
    let line := s.takeWhile (fun c => !isLineBoundary c)
    let rest := s.dropWhile (fun c => !isLineBoundary c)
    if h1 : rest = [] then [line]
    else
      if rest.headI = '\r' ∧ rest.tail.headI = '\n' ∧ ¬rest.tail = [] then
        line :: splitlinesPy rest.tail.tail
      else line :: splitlinesPy rest.tail
termination_by s.length
decreasing_by
  all_goals simp_wf
  all_goals
    have h2 : (s.dropWhile (fun c => !isLineBoundary c)).length ≤ s.length :=
      (List.dropWhile_sublist _).length_le
  all_goals
    have h3 : 0 < (s.dropWhile (fun c => !isLineBoundary c)).length := by
      cases hq : s.dropWhile (fun c => !isLineBoundary c) with
      | nil => exact absurd hq h1
      | cons a l => simp
  all_goals try simp only [List.length_tail]
  all_goals omega

/-- Splitting `source_all` on the first occurrence of the 〔注解〕 divider
(line 345): `re.split` with one split.  The pattern is a maximal whitespace
run, an optional 〔, the literal 注解, an optional 〕 and a maximal trailing
whitespace run; this function returns the text after such a match at the
head of `s`, or none. -/
def noteMatchTail (s : Str) : Option Str :=
  let t := s.dropWhile isPySpace
  let t1 := match t with
            | '〔' :: r => r
            | _ => t
  match t1 with
  | '注' :: '解' :: u =>
      let u1 := match u with
                | '〕' :: r => r
                | _ => u
      some (u1.dropWhile isPySpace)
  | _ => none

/-- Left-to-right scan for the leftmost 〔注解〕 divider match: returns the
text before it and, when a match exists, the text after it. -/
def ssGo : Str → Str × Option Str
  | [] => ([], none)
  | c :: rest =>
      match noteMatchTail (c :: rest) with
      | some rem => ([], some rem)
      | none =>
          let p := ssGo rest
          (c :: p.1, p.2)

/-- The `re.split(r"\n?\s*〔?注解〕?\s*\n?", source_all, maxsplit=1)` of
`parse_idiom` (line 345): `(source_text, source_notes_raw)`, the second
component empty when there is no divider. -/
def splitSourceNotes (s : Str) : Str × Str :=
  let p := ssGo s
  (p.1, p.2.getD [])

/-- The function `split_source_title_body` (lines 251-257): the first
non-blank line and the remaining non-blank lines rejoined. -/
def split_source_title_body (source_all : Str) : Str × Str :=
  if source_all = [] then ([], [])
  else
    match (splitlinesPy source_all).filter (fun ln => !(pyStrip ln).isEmpty) with
    | [] => ([], [])
    | t :: rest => (t, if rest = [] then [] else List.intercalate ['\n'] rest)

/-- The function `format_source_body` (lines 259-264). -/
def format_source_body (body : Str) : Str :=
  newline_to_cjk_comma
    (strip_bpmf_adjacent_newlines (condense_zhuyin (replace_arrow_notes body)))

/-- A line at which an item of `enumerate_source_notes`'s pattern starts
(line 272): optional spaces and tabs, then CJK characters, then a fullwidth
colon. -/
def isItemStartLine (l : Str) : Bool :=
  let t := l.dropWhile (fun c => c == ' ' || c == '\t')
  let cj := t.takeWhile isCJK
  !cj.isEmpty && (t.drop cj.length).head? == some '：'

/-- Group the newline-split lines of the notes text into the items of
`enumerate_source_notes`'s `finditer`: each group starts at an item-start
line and runs to the next one; lines before the first item-start line
belong to no item. -/
def groupItems : List Str → List (List Str)
  | [] => []
  | l :: rest =>
      if isItemStartLine l then
        (l :: rest.takeWhile (fun x => !isItemStartLine x)) ::
          groupItems (rest.dropWhile (fun x => !isItemStartLine x))
      else groupItems rest
termination_by ls => ls.length
decreasing_by
  all_goals simp_wf
  all_goals try omega
  have h1 : ((rest.dropWhile fun x : Str => !isItemStartLine x)).length ≤ rest.length :=
    (List.dropWhile_sublist _).length_le
  omega

/-- The text of one `finditer` match group: the start line without its
leading spaces and tabs, the following lines, and — except for the item
running to the end of the text — the newline before the next item. -/
def noteChunkText (g : List Str) (isLast : Bool) : Str :=
  match g with
  | [] => []
  | first :: others =>
      List.intercalate ['\n']
          ((first.dropWhile (fun c => c == ' ' || c == '\t')) :: others) ++
        (if isLast then [] else ['\n'])

/-- The sentence-final punctuation class of `enumerate_source_notes`
(line 275). -/
def endsNotePunct (item : Str) : Bool :=
  match item.getLast? with
  | some c => c == '。' || c == '！' || c == '？' || c == '」' || c == '』' || c == ')'
  | none => false

/-- One enumerated note: `[i]` then the normalised item, a 。 appended when
the item does not already end in closing punctuation (lines 273-276). -/
def noteItem (idx : Nat) (g : List Str) (isLast : Bool) : Str :=
  let item := (norm_space (noteChunkText g isLast)).filter (fun c => !(c == '\n'))
  let item2 := if endsNotePunct item then item else item ++ ['。']
  '[' :: ((toString idx).data ++ (']' :: item2))

/-- The function `enumerate_source_notes` (lines 266-277). -/
def enumerate_source_notes (notes_raw : Str) : Str :=
  if notes_raw = [] then []
  else
    let txt := rm_blanklines (strip_bpmf_adjacent_newlines (condense_zhuyin notes_raw))
    let groups := groupItems (List.splitOn '\n' txt)
    List.flatten (groups.mapIdx (fun i g => noteItem (i + 1) g (i + 1 = groups.length)))

/-- A line that `format_references_for_fulltext` treats as a headword: at
most six characters, all CJK (line 305). -/
def isShortCjkLine (l : Str) : Bool :=
  decide (l.length ≤ 6) && !l.isEmpty && l.all isCJK

/-- The accumulation loop of `format_references_for_fulltext`
(lines 300-316), mirroring `current_item` and `result_lines`. -/
def refsLoop (current : Str) (acc : List Str) : List Str → List Str
  | [] => if current = [] then acc else acc ++ [pyStrip current]
  | l :: rest =>
      if isShortCjkLine l then
        if current = [] then refsLoop l acc rest
        else refsLoop l (acc ++ [pyStrip current]) rest
      else
        if current = [] then refsLoop [] (acc ++ [l]) rest
        else refsLoop (current ++ l) acc rest

/-- The function `format_references_for_fulltext` (lines 287-318). -/
def format_references_for_fulltext (ref_raw : Str) : Str :=
  if ref_raw = [] then []
  else
    let s := rm_blanklines (strip_bpmf_adjacent_newlines (condense_zhuyin ref_raw))
    let lines := ((splitlinesPy s).map pyStrip).filter (fun l => !l.isEmpty)
    if lines = [] then []
    else
      let result := refsLoop [] [] lines
      if result = [] then [] else List.intercalate ['；'] result

/-- Scanner for the example clean-up of `parse_idiom` (lines 367-369):
`re.sub(r"\s*{re.escape(title)}\s*", title, ex)` for a nonempty `title`
whose first character is not whitespace (titles come out of `norm_space`,
which strips).  The leading `\s*` is then forced to take a whole
whitespace run, so a match is a maximal whitespace run, the literal title,
and a maximal whitespace run, replaced by the title alone. -/
def titleTrimGo (t0 : Char) (ts : Str) : Str → Str
  | [] => []
  | c :: rest =>
      let a := (c :: rest).dropWhile isPySpace
      if a.take (t0 :: ts).length = t0 :: ts then
        (t0 :: ts) ++ titleTrimGo t0 ts ((a.drop (t0 :: ts).length).dropWhile isPySpace)
      else c :: titleTrimGo t0 ts rest
termination_by s => s.length
decreasing_by
  all_goals simp_wf
  all_goals try omega
  have h1 : ((c :: rest).dropWhile isPySpace).length ≤ rest.length + 1 := by
    have hsub : ((c :: rest).dropWhile isPySpace).length ≤ (c :: rest).length :=
      (List.dropWhile_sublist isPySpace).length_le
    simpa using hsub
  have h2 : ((((c :: rest).dropWhile isPySpace).drop (ts.length + 1)).dropWhile
      isPySpace).length ≤ (((c :: rest).dropWhile isPySpace).drop (ts.length + 1)).length :=
    (List.dropWhile_sublist _).length_le
  have h3 : (((c :: rest).dropWhile isPySpace).drop (ts.length + 1)).length =
      ((c :: rest).dropWhile isPySpace).length - (ts.length + 1) := List.length_drop _ _
  omega

/-- The title-whitespace removal applied to each usage example in
`parse_idiom` (lines 367-369). -/
def titleTrim (t : Str) (s : Str) : Str :=
  match t with
  | [] => s
  | t0 :: ts => titleTrimGo t0 ts s

/-- The function `safe_slug` (lines 446-452): strip, collapse every run of
characters outside `\w`, `-` and CJK to one underscore, collapse underscore
runs, strip underscores, and fall back to `NA`. -/
def safe_slug (s : Str) : Str :=
  if s = [] then "NA".data
  else
    let s1 := pyStrip s
    let s2 := classRunsGo (fun c => !(isWordChar c || c == '-' || isCJK c)) '_' false s1
    let s3 := collapseRuns '_' s2
    let s4 := pyStripChar '_' s3
    if s4 = [] then "NA".data else s4

/-! ### The page model and `parse_idiom`

BeautifulSoup's DOM is not embedded.  A page is modelled by what
`parse_idiom` reads from it: the `#idiomTab` table (or its absence), whose
rows carry the `th` text (`get_text(" ", strip=True)`) and the `td` text
(`get_text("\n", strip=True)`); and, for the three cells whose parsing
walks the DOM itself rather than the text (用法說明, 辨識, 書證), the
results of `parse_usage_td`, `parse_synonyms_antonyms_td` and
`parse_citations_td` on those cells, taken as part of the page model.  The
defaults those parsers return for a missing cell are part of the model in
the same way.  Everything `parse_idiom` does with these inputs — matching,
normalisation, splitting, assembly and the validity checks — is embedded
below. -/

/-- One `tr` of the `#idiomTab` table that has both a `th` and a `td`
(`td_by_th`, lines 103-109). -/
structure Row where
  th : Str
  td : Str
deriving DecidableEq

/-- What `parse_usage_td` (lines 116-153) returns. -/
structure UsageOut where
  usage_meaning : Str
  usage_category : Str
  usage_examples : List Str
deriving DecidableEq

/-- What `parse_synonyms_antonyms_td` (lines 155-243) returns. -/
structure SynAntOut where
  synonyms : List Str
  synonym_links : List Str
  antonyms : List Str
  antonym_links : List Str
  comparison : Str
deriving DecidableEq

/-- The `#idiomTab` table as `parse_idiom` consumes it. -/
structure IdiomTab where
  rows : List Row
  usage_out : UsageOut
  synant_out : SynAntOut
  citations_out : Str
deriving DecidableEq

/-- A fetched page after `only_article`: either it has an `#idiomTab` table
or it does not (line 328). -/
structure Page where
  idiomTab : Option IdiomTab
deriving DecidableEq

/-- Whether `re.search(pat, s)` holds for the header pattern
`^a\s*b$`: `s` is `a`, whitespace, `b`, then the end (`$` also matches just
before a final newline). -/
def thPairMatch (a b : Char) (s : Str) : Bool :=
  match s with
  | c :: rest =>
      c == a && (let r := rest.dropWhile isPySpace; r == [b] || r == [b, '\n'])
  | [] => false

/-- The pattern of the title header (line 331): 成 or 詞, whitespace, 語. -/
def thTitleMatch (s : Str) : Bool := thPairMatch '成' '語' s || thPairMatch '詞' '語' s

/-- The pattern of the bopomofo header (line 332). -/
def thZhuyinMatch (s : Str) : Bool := thPairMatch '注' '音' s

/-- The pattern of the pinyin header (line 333): the exact text 漢語拼音. -/
def thPinyinMatch (s : Str) : Bool :=
  s == "漢語拼音".data || s == "漢語拼音\n".data

/-- The pattern of the definition header (line 337). -/
def thShiyiMatch (s : Str) : Bool := thPairMatch '釋' '義' s

/-- The pattern of the source header (line 343). -/
def thSourceMatch (s : Str) : Bool := thPairMatch '典' '源' s

/-- The pattern of the story header (line 352): the exact text 典故說明. -/
def thStoryMatch (s : Str) : Bool :=
  s == "典故說明".data || s == "典故說明\n".data

/-- Naive substring search, for the unanchored reference-header pattern
(line 378). -/
def hasSubstr (pat : Str) : Str → Bool
  | [] => pat.isEmpty
  | c :: rest => ((c :: rest).take pat.length == pat) || hasSubstr pat rest

/-- The pattern of the references header (line 378): contains 參考詞語. -/
def thRefsMatch (s : Str) : Bool := hasSubstr "參考詞語".data s

/-- The function `td_by_th` (lines 103-109): the `td` of the first row
whose `th` text matches. -/
def td_by_th (rows : List Row) (m : Str → Bool) : Option Str :=
  (rows.find? (fun r => m r.th)).map Row.td

/-- The function `text_in_td` (lines 111-113): the matched cell's text
normalised, or the empty string. -/
def text_in_td (rows : List Row) (m : Str → Bool) : Str :=
  match td_by_th rows m with
  | some td => norm_space td
  | none => []

/-- The record `parse_idiom` returns (lines 421-443), one field per key of
the Python dict, in the same order. -/
structure Item where
  id : Str
  url : Str
  title : Str
  bopomofo : Str
  pinyin : Str
  definition : Str
  source_title : Str
  source : Str
  source_notes : Str
  story : Str
  citations : Str
  usage_meaning : Str
  usage_category : Str
  usage_examples : List Str
  synonyms : List Str
  synonym_links : List Str
  antonyms : List Str
  antonym_links : List Str
  comparison : Str
  references : Str
  fulltext : Str
deriving DecidableEq

/-- The base URL constant (line 24). -/
def BASE : Str := "https://dict.idioms.moe.edu.tw".data

/-- The view path constant (line 25). -/
def VIEW : Str := "/idiomView.jsp".data

/-- The URL `parse_idiom` fetches (line 324):
`add_params(f"BASE VIEW?ID=id", webMd=2, la=0)` evaluated.  `parse_qs`
reads the one `ID` parameter, the two parameters are added after it, and
`urlencode` re-emits them in insertion order; the ID values the crawler
passes are decimal integers (possibly signed), whose characters `urlencode`
leaves unchanged. -/
def idiom_url (id_value : Str) : Str :=
  BASE ++ VIEW ++ "?ID=".data ++ id_value ++ "&webMd=2&la=0".data

/-- The title extracted by `parse_idiom` (line 331). -/
def titleOfTab (tab : IdiomTab) : Str := text_in_td tab.rows thTitleMatch

/-- The bopomofo field after its clean-up (lines 332, 335). -/
def bopomofoOfTab (tab : IdiomTab) : Str :=
  strip_newlines (condense_zhuyin (text_in_td tab.rows thZhuyinMatch))

/-- The definition field after its clean-up passes (lines 337-341). -/
def definitionOfTab (tab : IdiomTab) : Str :=
  fix_inline_markers_and_quotes
    (strip_bpmf_adjacent_newlines
      (condense_zhuyin (replace_arrow_notes (text_in_td tab.rows thShiyiMatch))))

/-- The characters `title_clean` keeps (line 413): `\w` or U+4E00-U+9FFF. -/
def isTitleKeep (c : Char) : Bool :=
  isWordChar c || (0x4E00 ≤ c.toNat && c.toNat ≤ 0x9FFF)

/-- The reduction of the title used by the length check (line 413). -/
def title_clean (title : Str) : Str := (pyStrip title).filter isTitleKeep

/-- The `fulltext` assembly of `parse_idiom` (lines 381-406). -/
def buildFulltext (title bopomofo pinyin definition source_title source_body
    source_notes story citations : Str) (usage_examples synonyms antonyms : List Str)
    (comparison references_fmt : Str) : Str :=
  let srcLines : List Str :=
    if source_title = [] then []
    else if source_body = [] then []
    else if source_title = "＃".data then ["典源：".data ++ source_body]
    else ["典源：".data ++ source_title ++ source_body]
  let lines : List Str :=
    ["成語：".data ++ title, "注音：".data ++ bopomofo,
     "漢語拼音：".data ++ pinyin, "釋義：".data ++ definition] ++
    srcLines ++
    (if source_notes = [] then [] else ["注解：".data ++ source_notes]) ++
    (if story = [] then [] else ["典故說明：".data ++ story]) ++
    (if citations = [] then [] else ["書證：".data ++ citations]) ++
    (if usage_examples = [] then []
     else ["例句：".data ++ List.intercalate "；".data usage_examples]) ++
    (if synonyms = [] then []
     else ["近義成語：".data ++ List.intercalate "、".data synonyms]) ++
    (if antonyms = [] then []
     else ["反義成語：".data ++ List.intercalate "、".data antonyms]) ++
    (if comparison = [] then [] else ["比較說明：".data ++ comparison]) ++
    (if references_fmt = [] then [] else ["參考詞語：".data ++ references_fmt])
  rm_blanklines (List.intercalate ['\n'] lines)

/-- The function `parse_idiom` (lines 323-443) on a fetched page: `error`
stands for a raised `NotFound`, with the message the source raises. -/
def parse_idiom (id_value : Str) (page : Page) : Except Str Item :=
  match page.idiomTab with
  | none => .error ("ID=".data ++ id_value ++ " not found or not advanced page.".data)
  | some tab =>
      let url := idiom_url id_value
      let title := titleOfTab tab
      let bopomofo := bopomofoOfTab tab
      let pinyin := text_in_td tab.rows thPinyinMatch
      let definition := definitionOfTab tab
      let source_all :=
        match td_by_th tab.rows thSourceMatch with
        | some td => norm_space td
        | none => []
      let parts := splitSourceNotes source_all
      let stb := split_source_title_body parts.1
      let source_title := stb.1
      let source_body := format_source_body stb.2
      let source_notes := enumerate_source_notes parts.2
      let story :=
        fix_inline_markers_and_quotes
          (strip_bpmf_adjacent_newlines
            (condense_zhuyin (text_in_td tab.rows thStoryMatch)))
      let citations := strip_bpmf_adjacent_newlines (condense_zhuyin tab.citations_out)
      let usage_examples :=
        if title = [] then tab.usage_out.usage_examples
        else tab.usage_out.usage_examples.map (titleTrim title)
      let synonyms := tab.synant_out.synonyms.map strip_newlines
      let antonyms := tab.synant_out.antonyms.map strip_newlines
      let references_raw := text_in_td tab.rows thRefsMatch
      let references_fmt := format_references_for_fulltext references_raw
      let fulltext := buildFulltext title bopomofo pinyin definition source_title
        source_body source_notes story citations usage_examples synonyms antonyms
        tab.synant_out.comparison references_fmt
      if title = [] ∨ pyStrip title = [] then
        .error ("ID=".data ++ id_value ++ " title is empty or invalid".data)
      else if (title_clean title).length < 2 then
        .error ("ID=".data ++ id_value ++ " title too short or meaningless: ".data ++ title)
      else if pyStrip bopomofo = [] ∧ pyStrip definition = [] then
        .error ("ID=".data ++ id_value ++
          " missing basic content (both bopomofo and definition are empty)".data)
      else
        .ok { id := id_value, url := url, title := title, bopomofo := bopomofo,
              pinyin := pinyin, definition := definition, source_title := source_title,
              source := source_body, source_notes := source_notes, story := story,
              citations := citations, usage_meaning := tab.usage_out.usage_meaning,
              usage_category := tab.usage_out.usage_category,
              usage_examples := usage_examples, synonyms := synonyms,
              synonym_links := tab.synant_out.synonym_links, antonyms := antonyms,
              antonym_links := tab.synant_out.antonym_links,
              comparison := tab.synant_out.comparison, references := references_raw,
              fulltext := fulltext }

/-! ### The file system model and `write_item` -/

/-- Python `os.path.join` for one component. -/
def pathJoin (a b : Str) : Str :=
  if b.head? = some '/' then b
  else if a = [] then b
  else if a.getLast? = some '/' then a ++ b
  else a ++ '/' :: b

/-- The file-system state `write_item` updates: the JSON files (modelled as
storing the dumped record), the text files, and the JSON-lines files
(modelled as the list of appended records). -/
structure FS where
  jsonFiles : Str → Option Item
  txtFiles : Str → Option Str
  jsonl : Str → List Item

/-- The base file name `id_slug` of `write_item` (lines 455-456). -/
def slugBase (data : Item) : Str := data.id ++ '_' :: safe_slug data.title

/-- The per-entry JSON path `out_dir/json/id_slug.json` (lines 457, 461). -/
def jsonPathOf (out_dir : Str) (data : Item) : Str :=
  pathJoin (pathJoin out_dir "json".data) (slugBase data ++ ".json".data)

/-- The per-entry TXT path `out_dir/txt/id_slug.txt` (lines 458, 462). -/
def txtPathOf (out_dir : Str) (data : Item) : Str :=
  pathJoin (pathJoin out_dir "txt".data) (slugBase data ++ ".txt".data)

/-- The corpus path `out_dir/moe_idioms.jsonl` (line 463). -/
def jsonlPathOf (out_dir : Str) : Str := pathJoin out_dir "moe_idioms.jsonl".data

/-- The function `write_item` (lines 454-471): dump the record to its JSON
path (mode `w`, overwriting), write `fulltext` plus one newline to its TXT
path (mode `w`), and append one dumped line to the JSONL corpus (mode `a`). -/
def write_item (out_dir : Str) (data : Item) (fs : FS) : FS :=
  { jsonFiles := fun p => if p = jsonPathOf out_dir data then some data else fs.jsonFiles p,
    txtFiles := fun p =>
      if p = txtPathOf out_dir data then some (data.fulltext ++ ['\n']) else fs.txtFiles p,
    jsonl := fun p =>
      if p = jsonlPathOf out_dir then fs.jsonl p ++ [data] else fs.jsonl p }

/-! ### The main loop

`main` (lines 475-518) iterates `idx` from `--start-id` by `--step`.  Each
iteration calls `parse_idiom(str(idx))` — one `get_soup`, hence one session
GET — and the try/except drives three cases: success writes the item and
zeroes the consecutive-miss counter; `NotFound` bumps both miss counters
and breaks out of the loop (before the stride) once the consecutive counter
reaches `--max-misses`; any other exception bumps the error counter and
zeroes the consecutive-miss counter.  The network is modelled by an
environment giving the outcome of each iteration's fetch+parse. -/

/-- The outcome of one `parse_idiom` call inside the loop's try block. -/
inductive Outcome where
  | ok (item : Item)
  | notFound
  | err
deriving DecidableEq

/-- The command-line arguments the loop reads (lines 477-480). -/
structure Params where
  start_id : Int
  step : Int
  out_dir : Str
  max_misses : Int
deriving DecidableEq

/-- The loop state: `idx`, the four counters (Python ints), the file
system, the trace of IDs passed to `parse_idiom`, the trace of URLs
fetched by `get_soup`, and whether the loop has exited. -/
structure LoopState where
  idx : Int
  consecutive_miss : Int
  ok_cnt : Int
  miss_cnt : Int
  err_cnt : Int
  fs : FS
  fetched : List Int
  gets : List Str
  stopped : Bool

/-- The state just before the first iteration (lines 486-490). -/
def initState (p : Params) (fs0 : FS) : LoopState :=
  { idx := p.start_id, consecutive_miss := 0, ok_cnt := 0, miss_cnt := 0,
    err_cnt := 0, fs := fs0, fetched := [], gets := [], stopped := false }

/-- The decimal rendering of an integer, `str(idx)` (line 495): Lean's
`toString` on `Int` agrees with Python's for every integer. -/
def intStr (i : Int) : Str := (toString i).data

/-- The URL trace of one `parse_idiom` call (lines 324-325): `get_soup` is
called exactly once, on the ID's view URL. -/
def parse_idiom_gets (id_value : Str) : List Str := [idiom_url id_value]

/-- One iteration of the `while True` loop (lines 493-514): if the loop has
exited nothing happens any more; otherwise the current ID is fetched and
the outcome handled as in the source, the stride being added in every case
except the `break`. -/
def loopIter (p : Params) (o : Outcome) (st : LoopState) : LoopState :=
  if st.stopped then st
  else
    let st1 : LoopState :=
      { st with
        fetched := st.fetched ++ [st.idx]
        gets := st.gets ++ parse_idiom_gets (intStr st.idx) }
    match o with
    | .ok item =>
        { st1 with
          fs := write_item p.out_dir item st1.fs
          ok_cnt := st1.ok_cnt + 1
          consecutive_miss := 0
          idx := st1.idx + p.step }
    | .notFound =>
        let st2 : LoopState :=
          { st1 with
            miss_cnt := st1.miss_cnt + 1
            consecutive_miss := st1.consecutive_miss + 1 }
        if st2.consecutive_miss ≥ p.max_misses then { st2 with stopped := true }
        else { st2 with idx := st2.idx + p.step }
    | .err =>
        { st1 with
          err_cnt := st1.err_cnt + 1
          consecutive_miss := 0
          idx := st1.idx + p.step }

/-- The loop state after `n` iterations against the outcome environment
`env`, starting from the file system `fs0`. -/
def runN (p : Params) (env : Nat → Outcome) (fs0 : FS) : Nat → LoopState
  | 0 => initState p fs0
  | n + 1 => loopIter p (env n) (runN p env fs0 n)

/-- The length of the trailing run of `notFound` outcomes among the first
`n` outcomes: what `consecutive_miss` tracks. -/
def trailingMisses (env : Nat → Outcome) : Nat → Nat
  | 0 => 0
  | n + 1 => if env n = Outcome.notFound then trailingMisses env n + 1 else 0

/-- The arithmetic progression of attempted IDs. -/
def arithSeq (a d : Int) (m : Nat) : List Int :=
  (List.range m).map (fun k : Nat => a + (k : Int) * d)

/-- The empty file system the model starts runs from. -/
def emptyFS : FS :=
  { jsonFiles := fun _ => none, txtFiles := fun _ => none, jsonl := fun _ => [] }

/-- A concrete parsed record for the write witness. -/
def sampleItem : Item :=
  { id := "7".data, url := "u".data, title := "一帆風順".data,
    bopomofo := [], pinyin := [], definition := "d".data, source_title := [],
    source := [], source_notes := [], story := [], citations := [],
    usage_meaning := [], usage_category := [], usage_examples := [],
    synonyms := [], synonym_links := [], antonyms := [], antonym_links := [],
    comparison := [], references := [], fulltext := "f".data }

/-! ### The claim-side description of the whitespace-run substitutions

The claims for `condense_zhuyin` and `newline_to_cjk_comma` describe the
substitutions run-wise: after a character of the `pre` class, a maximal
whitespace run satisfying the run condition and followed by a character of
the `post` class is replaced by `repl`, and every other character is kept
in order.  `runSubSpec` is that description written directly as a
recursion; the equivalence theorem below connects it to the left-to-right
scanner `runSubGo` that embeds the regex pass. -/

/-- Whether a list starts with a character of the class. -/
def headSat (p : Char → Bool) : Str → Bool
  | [] => false
  | c :: _ => p c

/-- Run-wise description of a flanked whitespace-run substitution: at a
`pre`-class character, a whitespace run satisfying `cond` followed by a
`post`-class character is replaced by `repl` (the flanking characters
stay); every other character is kept. -/
def runSubSpec (wsP pre post : Char → Bool) (cond : Str → Bool) (repl : Str) : Str → Str
  | [] => []
  | c :: rest =>
      if pre c then
        if cond (rest.takeWhile wsP) && headSat post (rest.dropWhile wsP) then
          c :: (repl ++ runSubSpec wsP pre post cond repl (rest.dropWhile wsP))
        else c :: runSubSpec wsP pre post cond repl rest
      else c :: runSubSpec wsP pre post cond repl rest
termination_by s => s.length
decreasing_by
  all_goals simp_wf
  all_goals try omega
  have hsub : (rest.dropWhile wsP).length ≤ rest.length :=
    (List.dropWhile_sublist wsP).length_le
  omega

/-- The body of `runSubSpec` after a `pre`-class character has been read. -/
def runSubSpecTail (wsP pre post : Char → Bool) (cond : Str → Bool) (repl : Str)
    (s : Str) : Str :=
  if cond (s.takeWhile wsP) && headSat post (s.dropWhile wsP) then
    repl ++ runSubSpec wsP pre post cond repl (s.dropWhile wsP)
  else runSubSpec wsP pre post cond repl s

/-- The run-wise description of `condense_zhuyin` in the claim's terms:
every nonempty whitespace run strictly between two bopomofo characters
(the BPMF ranges with the tone marks) is deleted entirely, and every other
character is kept in order. -/
def condenseZhuyinSpec (s : Str) : Str :=
  runSubSpec isPySpace isBPMF isBPMF (fun ws => !ws.isEmpty) [] s

/-! ## Theorems -/

/-- Dropping a while-prefix never lengthens a list (termination helper). -/
theorem length_dropWhile_le (p : Char → Bool) (l : List Char) :
    (l.dropWhile p).length ≤ l.length :=
  (List.dropWhile_sublist p).length_le

/-! ### Loop lemmas -/

/-- Once the loop has exited, an iteration changes nothing. -/
theorem loopIter_stopped (p : Params) (o : Outcome) (st : LoopState)
    (h : st.stopped = true) : loopIter p o st = st := by
  simp [loopIter, h]

/-- Exiting is absorbing: a state that has not exited after `n + 1`
iterations had not exited after `n`. -/
theorem runN_stopped_mono (p : Params) (env : Nat → Outcome) (fs0 : FS) (n : Nat)
    (h : (runN p env fs0 (n + 1)).stopped = false) :
    (runN p env fs0 n).stopped = false := by
  by_contra hc
  have hs : (runN p env fs0 n).stopped = true := by
    cases hq : (runN p env fs0 n).stopped
    · exact absurd hq hc
    · rfl
  have : runN p env fs0 (n + 1) = runN p env fs0 n := loopIter_stopped _ _ _ hs
  rw [this] at h
  rw [h] at hs
  exact Bool.false_ne_true hs

/-- After the loop has exited, every later state is the same state:
no further ID is fetched. -/
theorem runN_freeze (p : Params) (env : Nat → Outcome) (fs0 : FS) (n : Nat)
    (h : (runN p env fs0 n).stopped = true) :
    ∀ k, runN p env fs0 (n + k) = runN p env fs0 n := by
  intro k
  induction k with
  | zero => rfl
  | succ k ih =>
      have : n + (k + 1) = (n + k) + 1 := rfl
      rw [this]
      show loopIter p (env (n + k)) (runN p env fs0 (n + k)) = _
      rw [ih]
      exact loopIter_stopped _ _ _ h

/-- The URL trace is the fetched-ID trace rendered through the view URL:
one GET per attempted ID. -/
theorem runN_gets_map (p : Params) (env : Nat → Outcome) (fs0 : FS) :
    ∀ n, (runN p env fs0 n).gets
      = (runN p env fs0 n).fetched.map (fun i => idiom_url (intStr i)) := by
  intro n
  induction n with
  | zero => rfl
  | succ n ih =>
      show (loopIter p (env n) (runN p env fs0 n)).gets
        = (loopIter p (env n) (runN p env fs0 n)).fetched.map _
      by_cases hs : (runN p env fs0 n).stopped = true
      · rw [loopIter_stopped _ _ _ hs]; exact ih
      · have hs' : (runN p env fs0 n).stopped = false := by
          cases hq : (runN p env fs0 n).stopped
          · rfl
          · exact absurd hq hs
        cases ho : env n with
        | ok item => simp [loopIter, hs', parse_idiom_gets, ih]
        | notFound =>
            by_cases hm : (runN p env fs0 n).consecutive_miss + 1 ≥ p.max_misses
            · simp [loopIter, hs', hm, parse_idiom_gets, ih]
            · simp [loopIter, hs', hm, parse_idiom_gets, ih]
        | err => simp [loopIter, hs', parse_idiom_gets, ih]

/-- An iteration on a running state, successful parse: the item is
written, the success counter bumps, the consecutive-miss counter resets,
and the stride is added. -/
theorem loopIter_ok (p : Params) (it : Item) (st : LoopState)
    (hs : st.stopped = false) :
    loopIter p (Outcome.ok it) st =
      { st with
        fs := write_item p.out_dir it st.fs
        ok_cnt := st.ok_cnt + 1
        consecutive_miss := 0
        fetched := st.fetched ++ [st.idx]
        gets := st.gets ++ [idiom_url (intStr st.idx)]
        idx := st.idx + p.step } := by
  simp [loopIter, hs, parse_idiom_gets]

/-- An iteration on a running state, other exception: the error counter
bumps, the consecutive-miss counter resets, and the stride is added. -/
theorem loopIter_err (p : Params) (st : LoopState) (hs : st.stopped = false) :
    loopIter p Outcome.err st =
      { st with
        err_cnt := st.err_cnt + 1
        consecutive_miss := 0
        fetched := st.fetched ++ [st.idx]
        gets := st.gets ++ [idiom_url (intStr st.idx)]
        idx := st.idx + p.step } := by
  simp [loopIter, hs, parse_idiom_gets]

/-- An iteration on a running state, `NotFound` reaching the limit: both
miss counters bump and the loop exits without adding the stride. -/
theorem loopIter_nf_break (p : Params) (st : LoopState) (hs : st.stopped = false)
    (hm : st.consecutive_miss + 1 ≥ p.max_misses) :
    loopIter p Outcome.notFound st =
      { st with
        miss_cnt := st.miss_cnt + 1
        consecutive_miss := st.consecutive_miss + 1
        fetched := st.fetched ++ [st.idx]
        gets := st.gets ++ [idiom_url (intStr st.idx)]
        stopped := true } := by
  simp [loopIter, hs, parse_idiom_gets, hm]

/-- An iteration on a running state, `NotFound` below the limit: both miss
counters bump and the stride is added. -/
theorem loopIter_nf_cont (p : Params) (st : LoopState) (hs : st.stopped = false)
    (hm : ¬st.consecutive_miss + 1 ≥ p.max_misses) :
    loopIter p Outcome.notFound st =
      { st with
        miss_cnt := st.miss_cnt + 1
        consecutive_miss := st.consecutive_miss + 1
        fetched := st.fetched ++ [st.idx]
        gets := st.gets ++ [idiom_url (intStr st.idx)]
        idx := st.idx + p.step } := by
  simp [loopIter, hs, parse_idiom_gets, hm]

/-- The fetched IDs always form the arithmetic progression from
`--start-id` with stride `--step`, and while the loop is running `idx`
points just past them. -/
theorem runN_fetched_arith (p : Params) (env : Nat → Outcome) (fs0 : FS) :
    ∀ n, (runN p env fs0 n).fetched
        = arithSeq p.start_id p.step (runN p env fs0 n).fetched.length
      ∧ ((runN p env fs0 n).stopped = false →
          (runN p env fs0 n).idx
            = p.start_id + ((runN p env fs0 n).fetched.length : Int) * p.step) := by
  intro n
  induction n with
  | zero => exact ⟨rfl, fun _ => by simp [runN, initState, arithSeq]⟩
  | succ n ih =>
      obtain ⟨ih1, ih2⟩ := ih
      have hstep : runN p env fs0 (n + 1) = loopIter p (env n) (runN p env fs0 n) := rfl
      by_cases hs : (runN p env fs0 n).stopped = false
      case neg =>
        have hst : (runN p env fs0 n).stopped = true := by
          cases hq : (runN p env fs0 n).stopped
          · exact absurd hq hs
          · rfl
        rw [hstep, loopIter_stopped _ _ _ hst]
        refine ⟨ih1, fun hf => absurd (hst ▸ hf) (by simp)⟩
      case pos =>
        have hidx := ih2 hs
        have hgrow : arithSeq p.start_id p.step ((runN p env fs0 n).fetched.length + 1)
            = arithSeq p.start_id p.step (runN p env fs0 n).fetched.length
              ++ [p.start_id + ((runN p env fs0 n).fetched.length : Int) * p.step] := by
          simp [arithSeq, List.range_succ]
        have hpush : p.start_id + ((runN p env fs0 n).fetched.length : Int) * p.step + p.step
            = p.start_id + (((runN p env fs0 n).fetched.length : Nat) + 1 : Int) * p.step := by
          push_cast
          ring
        cases ho : env n with
        | ok item =>
            rw [hstep, ho, loopIter_ok p item _ hs]
            constructor
            · simp [hgrow, ← ih1, ← hidx]
            · intro _
              simp [hidx, List.length_append]
              push_cast
              ring
        | notFound =>
            by_cases hm : (runN p env fs0 n).consecutive_miss + 1 ≥ p.max_misses
            · rw [hstep, ho, loopIter_nf_break p _ hs hm]
              constructor
              · simp [hgrow, ← ih1, ← hidx]
              · intro hf
                simp at hf
            · rw [hstep, ho, loopIter_nf_cont p _ hs hm]
              constructor
              · simp [hgrow, ← ih1, ← hidx]
              · intro _
                simp [hidx, List.length_append]
                push_cast
                ring
        | err =>
            rw [hstep, ho, loopIter_err p _ hs]
            constructor
            · simp [hgrow, ← ih1, ← hidx]
            · intro _
              simp [hidx, List.length_append]
              push_cast
              ring

/-- While the loop is running, `consecutive_miss` is exactly the length of
the trailing run of `NotFound` outcomes, and every iteration so far fetched
one ID. -/
theorem runN_cm_trailing (p : Params) (env : Nat → Outcome) (fs0 : FS) :
    ∀ n, (runN p env fs0 n).stopped = false →
      (runN p env fs0 n).consecutive_miss = (trailingMisses env n : Int)
        ∧ (runN p env fs0 n).fetched.length = n := by
  intro n
  induction n with
  | zero => exact fun _ => ⟨rfl, rfl⟩
  | succ n ih =>
      intro hrun
      have hs : (runN p env fs0 n).stopped = false := runN_stopped_mono p env fs0 n hrun
      obtain ⟨ihc, ihl⟩ := ih hs
      have hstep : runN p env fs0 (n + 1) = loopIter p (env n) (runN p env fs0 n) := rfl
      cases ho : env n with
      | ok item =>
          rw [hstep, ho, loopIter_ok p item _ hs]
          simp [trailingMisses, ho, ihl]
      | notFound =>
          by_cases hm : (runN p env fs0 n).consecutive_miss + 1 ≥ p.max_misses
          · exfalso
            rw [hstep, ho, loopIter_nf_break p _ hs hm] at hrun
            simp at hrun
          · rw [hstep, ho, loopIter_nf_cont p _ hs hm]
            simp [trailingMisses, ho, ihl, ihc]
      | err =>
          rw [hstep, ho, loopIter_err p _ hs]
          simp [trailingMisses, ho, ihl]

/-- Claim C1.  The crawl loop stops exactly when the consecutive `NotFound`
count reaches `--max-misses`: on a running state, a `NotFound` outcome adds
one to `consecutive_miss` and any other outcome (success or another
exception) resets it to zero; the running counter always equals the length
of the trailing run of `NotFound` outcomes; the next state has exited
exactly when the outcome was `NotFound` and the bumped counter reaches the
limit; and once the loop has exited every later state is identical, so no
further ID is fetched. -/
theorem c1_stop_exactly_at_max_misses (p : Params) (env : Nat → Outcome)
    (fs0 : FS) (n : Nat) :
    ((runN p env fs0 n).stopped = true →
        ∀ k, runN p env fs0 (n + k) = runN p env fs0 n) ∧
    ((runN p env fs0 n).stopped = false →
      (runN p env fs0 n).consecutive_miss = (trailingMisses env n : Int) ∧
      (runN p env fs0 (n + 1)).consecutive_miss
        = (if env n = Outcome.notFound then (runN p env fs0 n).consecutive_miss + 1 else 0) ∧
      ((runN p env fs0 (n + 1)).stopped = true ↔
        env n = Outcome.notFound ∧
          (runN p env fs0 n).consecutive_miss + 1 ≥ p.max_misses) ∧
      (runN p env fs0 n).fetched.length = n) := by
  constructor
  · exact runN_freeze p env fs0 n
  · intro hs
    obtain ⟨ihc, ihl⟩ := runN_cm_trailing p env fs0 n hs
    have hstep : runN p env fs0 (n + 1) = loopIter p (env n) (runN p env fs0 n) := rfl
    refine ⟨ihc, ?_, ?_, ihl⟩
    · cases ho : env n with
      | ok item => rw [hstep, ho, loopIter_ok p item _ hs]; simp
      | notFound =>
          by_cases hm : (runN p env fs0 n).consecutive_miss + 1 ≥ p.max_misses
          · rw [hstep, ho, loopIter_nf_break p _ hs hm]; simp
          · rw [hstep, ho, loopIter_nf_cont p _ hs hm]; simp
      | err => rw [hstep, ho, loopIter_err p _ hs]; simp
    · cases ho : env n with
      | ok item =>
          rw [hstep, ho, loopIter_ok p item _ hs]
          simp [hs]
      | notFound =>
          by_cases hm : (runN p env fs0 n).consecutive_miss + 1 ≥ p.max_misses
          · rw [hstep, ho, loopIter_nf_break p _ hs hm]
            simpa using hm
          · rw [hstep, ho, loopIter_nf_cont p _ hs hm]
            simp [hs]
            omega
      | err =>
          rw [hstep, ho, loopIter_err p _ hs]
          simp [hs]

/-- Claim C4.  The ID space is iterated with a fixed stride: whatever the
outcomes, the list of IDs passed to `parse_idiom` is always an initial
segment of the arithmetic progression `start_id, start_id + step,
start_id + 2*step, ...`. -/
theorem c4_fixed_stride (p : Params) (env : Nat → Outcome) (fs0 : FS) (n : Nat) :
    (runN p env fs0 n).fetched
      = arithSeq p.start_id p.step (runN p env fs0 n).fetched.length :=
  (runN_fetched_arith p env fs0 n).1

/-- Claim C2.  An ID on which `parse_idiom` raises `NotFound`, when the
miss limit is not reached, is skipped with no retry: the file system is
untouched (no JSON, no TXT, no JSONL append), the success and error
counters are unchanged, only the two miss counters grow, the loop stays
running, and `idx` moves to the next ID of the stride. -/
theorem c2_notfound_skips (p : Params) (env : Nat → Outcome) (fs0 : FS) (n : Nat)
    (hs : (runN p env fs0 n).stopped = false)
    (ho : env n = Outcome.notFound)
    (hm : (runN p env fs0 n).consecutive_miss + 1 < p.max_misses) :
    runN p env fs0 (n + 1) =
      { runN p env fs0 n with
        miss_cnt := (runN p env fs0 n).miss_cnt + 1
        consecutive_miss := (runN p env fs0 n).consecutive_miss + 1
        fetched := (runN p env fs0 n).fetched ++ [(runN p env fs0 n).idx]
        gets := (runN p env fs0 n).gets
          ++ [idiom_url (intStr (runN p env fs0 n).idx)]
        idx := (runN p env fs0 n).idx + p.step } := by
  have hstep : runN p env fs0 (n + 1) = loopIter p (env n) (runN p env fs0 n) := rfl
  have hm' : ¬(runN p env fs0 n).consecutive_miss + 1 ≥ p.max_misses := by omega
  rw [hstep, ho, loopIter_nf_cont p _ hs hm']

/-- Witness for C2 at a concrete run: start 1, step 1, limit 20, every
outcome `NotFound`, first iteration. -/
theorem c2_notfound_skips_witness :
    (runN ⟨1, 1, [], 20⟩ (fun _ => Outcome.notFound) emptyFS 0).stopped = false ∧
    (fun _ : Nat => Outcome.notFound) 0 = Outcome.notFound ∧
    (runN ⟨1, 1, [], 20⟩ (fun _ => Outcome.notFound) emptyFS 0).consecutive_miss + 1
      < (Params.mk 1 1 [] 20).max_misses ∧
    runN ⟨1, 1, [], 20⟩ (fun _ => Outcome.notFound) emptyFS 1 =
      { runN ⟨1, 1, [], 20⟩ (fun _ => Outcome.notFound) emptyFS 0 with
        miss_cnt := (runN ⟨1, 1, [], 20⟩ (fun _ => Outcome.notFound) emptyFS 0).miss_cnt + 1
        consecutive_miss :=
          (runN ⟨1, 1, [], 20⟩ (fun _ => Outcome.notFound) emptyFS 0).consecutive_miss + 1
        fetched := (runN ⟨1, 1, [], 20⟩ (fun _ => Outcome.notFound) emptyFS 0).fetched
          ++ [(runN ⟨1, 1, [], 20⟩ (fun _ => Outcome.notFound) emptyFS 0).idx]
        gets := (runN ⟨1, 1, [], 20⟩ (fun _ => Outcome.notFound) emptyFS 0).gets
          ++ [idiom_url (intStr (runN ⟨1, 1, [], 20⟩ (fun _ => Outcome.notFound) emptyFS 0).idx)]
        idx := (runN ⟨1, 1, [], 20⟩ (fun _ => Outcome.notFound) emptyFS 0).idx
          + (Params.mk 1 1 [] 20).step } :=
  ⟨rfl, rfl, by decide,
    c2_notfound_skips ⟨1, 1, [], 20⟩ (fun _ => Outcome.notFound) emptyFS 0 rfl rfl
      (by decide)⟩

/-- The attempted IDs are pairwise distinct when the stride is nonzero. -/
theorem arithSeq_nodup (a d : Int) (hd : d ≠ 0) (m : Nat) :
    (arithSeq a d m).Nodup := by
  have hinj : Function.Injective (fun k : Nat => a + (k : Int) * d) := by
    intro k1 k2 h
    simp only at h
    have h2 : (k1 : Int) * d = (k2 : Int) * d := by
      have := add_left_cancel h
      exact this
    have h3 : (k1 : Int) = (k2 : Int) := mul_right_cancel₀ hd h2
    exact_mod_cast h3
  unfold arithSeq
  exact List.Nodup.map hinj (List.nodup_range m)

/-- Claim C7.  Each ID costs exactly one HTTP GET: the trace of `get_soup`
URLs is exactly one view URL (with `webMd=2` and `la=0` appended) per
attempted ID, in order, and with a nonzero stride no ID is ever attempted
twice. -/
theorem c7_one_get_per_id (p : Params) (env : Nat → Outcome) (fs0 : FS) (n : Nat)
    (hd : p.step ≠ 0) :
    (runN p env fs0 n).gets
        = (runN p env fs0 n).fetched.map (fun i => idiom_url (intStr i)) ∧
    (runN p env fs0 n).gets.length = (runN p env fs0 n).fetched.length ∧
    (runN p env fs0 n).fetched.Nodup := by
  refine ⟨runN_gets_map p env fs0 n, ?_, ?_⟩
  · rw [runN_gets_map p env fs0 n]
    exact List.length_map _ _
  · rw [(runN_fetched_arith p env fs0 n).1]
    exact arithSeq_nodup _ _ hd _

/-- Witness for C7 at a concrete run: start 5, step 2, limit 3, alternating
outcomes, four iterations. -/
theorem c7_one_get_per_id_witness :
    (Params.mk 5 2 [] 3).step ≠ 0 ∧
    ((runN ⟨5, 2, [], 3⟩ (fun _ => Outcome.err) emptyFS 4).gets
        = (runN ⟨5, 2, [], 3⟩ (fun _ => Outcome.err) emptyFS 4).fetched.map
            (fun i => idiom_url (intStr i)) ∧
      (runN ⟨5, 2, [], 3⟩ (fun _ => Outcome.err) emptyFS 4).gets.length
        = (runN ⟨5, 2, [], 3⟩ (fun _ => Outcome.err) emptyFS 4).fetched.length ∧
      (runN ⟨5, 2, [], 3⟩ (fun _ => Outcome.err) emptyFS 4).fetched.Nodup) :=
  ⟨by decide, c7_one_get_per_id ⟨5, 2, [], 3⟩ (fun _ => Outcome.err) emptyFS 4 (by decide)⟩

/-! ### The write path of one entry (claim C3) -/

/-- `os.path.join` concatenates with a separator when the left part is
nonempty, does not end in a separator, and the right part is relative. -/
theorem pathJoin_eq_concat (a b : Str) (ha : a ≠ [])
    (hla : a.getLast? ≠ some '/') (hb : b.head? ≠ some '/') :
    pathJoin a b = a ++ '/' :: b := by
  unfold pathJoin
  rw [if_neg hb, if_neg ha, if_neg hla]

/-- The JSON path of an entry written under a well-formed output directory
is the literal `out_dir/json/<id>_<slug>.json`. -/
theorem jsonPathOf_eq (out_dir : Str) (data : Item) (h1 : out_dir ≠ [])
    (h2 : out_dir.getLast? ≠ some '/') (h3 : data.id.head? ≠ some '/') :
    jsonPathOf out_dir data
      = out_dir ++ "/json/".data ++ data.id ++ '_' :: safe_slug data.title
          ++ ".json".data := by
  unfold jsonPathOf slugBase
  have hj : ("json".data : Str).head? ≠ some '/' := by decide
  have e1 : pathJoin out_dir "json".data = out_dir ++ '/' :: "json".data :=
    pathJoin_eq_concat _ _ h1 h2 hj
  have h4 : (out_dir ++ '/' :: "json".data) ≠ [] := by simp
  have h5 : (out_dir ++ '/' :: "json".data).getLast? ≠ some '/' := by
    have hlit : ('/' :: "json".data : Str).getLast? = some 'n' := rfl
    rw [List.getLast?_append, hlit]
    simp
  have h6 : (data.id ++ '_' :: safe_slug data.title ++ ".json".data).head? ≠ some '/' := by
    rcases hid : data.id with _ | ⟨c, cs⟩
    · simp
    · rw [hid] at h3
      simpa using h3
  rw [e1, pathJoin_eq_concat _ _ h4 h5 h6]
  simp

/-- The TXT path of an entry written under a well-formed output directory
is the literal `out_dir/txt/<id>_<slug>.txt`. -/
theorem txtPathOf_eq (out_dir : Str) (data : Item) (h1 : out_dir ≠ [])
    (h2 : out_dir.getLast? ≠ some '/') (h3 : data.id.head? ≠ some '/') :
    txtPathOf out_dir data
      = out_dir ++ "/txt/".data ++ data.id ++ '_' :: safe_slug data.title
          ++ ".txt".data := by
  unfold txtPathOf slugBase
  have hj : ("txt".data : Str).head? ≠ some '/' := by decide
  have e1 : pathJoin out_dir "txt".data = out_dir ++ '/' :: "txt".data :=
    pathJoin_eq_concat _ _ h1 h2 hj
  have h4 : (out_dir ++ '/' :: "txt".data) ≠ [] := by simp
  have h5 : (out_dir ++ '/' :: "txt".data).getLast? ≠ some '/' := by
    have hlit : ('/' :: "txt".data : Str).getLast? = some 't' := rfl
    rw [List.getLast?_append, hlit]
    simp
  have h6 : (data.id ++ '_' :: safe_slug data.title ++ ".txt".data).head? ≠ some '/' := by
    rcases hid : data.id with _ | ⟨c, cs⟩
    · simp
    · rw [hid] at h3
      simpa using h3
  rw [e1, pathJoin_eq_concat _ _ h4 h5 h6]
  simp

/-- The corpus path under a well-formed output directory is the literal
`out_dir/moe_idioms.jsonl`. -/
theorem jsonlPathOf_eq (out_dir : Str) (h1 : out_dir ≠ [])
    (h2 : out_dir.getLast? ≠ some '/') :
    jsonlPathOf out_dir = out_dir ++ "/moe_idioms.jsonl".data := by
  unfold jsonlPathOf
  have hj : ("moe_idioms.jsonl".data : Str).head? ≠ some '/' := by decide
  rw [pathJoin_eq_concat _ _ h1 h2 hj]

/-- Claim C3.  `write_item` persists a parsed entry in exactly three forms:
the record at `out_dir/json/<id>_<slug>.json` (overwriting), the record's
fulltext followed by one newline at `out_dir/txt/<id>_<slug>.txt`
(overwriting), and exactly one line appended to `out_dir/moe_idioms.jsonl`
with every previously appended line unchanged; no other file changes. -/
theorem c3_write_item_three_forms (out_dir : Str) (data : Item) (fs : FS)
    (h1 : out_dir ≠ []) (h2 : out_dir.getLast? ≠ some '/')
    (h3 : data.id.head? ≠ some '/') :
    (write_item out_dir data fs).jsonFiles
        (out_dir ++ "/json/".data ++ data.id ++ '_' :: safe_slug data.title
          ++ ".json".data) = some data ∧
    (∀ q, q ≠ out_dir ++ "/json/".data ++ data.id ++ '_' :: safe_slug data.title
          ++ ".json".data →
      (write_item out_dir data fs).jsonFiles q = fs.jsonFiles q) ∧
    (write_item out_dir data fs).txtFiles
        (out_dir ++ "/txt/".data ++ data.id ++ '_' :: safe_slug data.title
          ++ ".txt".data) = some (data.fulltext ++ ['\n']) ∧
    (∀ q, q ≠ out_dir ++ "/txt/".data ++ data.id ++ '_' :: safe_slug data.title
          ++ ".txt".data →
      (write_item out_dir data fs).txtFiles q = fs.txtFiles q) ∧
    (write_item out_dir data fs).jsonl (out_dir ++ "/moe_idioms.jsonl".data)
      = fs.jsonl (out_dir ++ "/moe_idioms.jsonl".data) ++ [data] ∧
    (∀ q, q ≠ out_dir ++ "/moe_idioms.jsonl".data →
      (write_item out_dir data fs).jsonl q = fs.jsonl q) := by
  have ej := jsonPathOf_eq out_dir data h1 h2 h3
  have et := txtPathOf_eq out_dir data h1 h2 h3
  have el := jsonlPathOf_eq out_dir h1 h2
  refine ⟨?_, ?_, ?_, ?_, ?_, ?_⟩
  · simp [write_item, ej]
  · intro q hq
    simp only [write_item]
    rw [if_neg]
    rw [ej]
    exact hq
  · simp [write_item, et]
  · intro q hq
    simp only [write_item]
    rw [if_neg]
    rw [et]
    exact hq
  · simp [write_item, el]
  · intro q hq
    simp only [write_item]
    rw [if_neg]
    rw [el]
    exact hq

/-- Witness for C3 at a concrete output directory, record and file
system. -/
theorem c3_write_item_three_forms_witness :
    ("out".data : Str) ≠ [] ∧
    ("out".data : Str).getLast? ≠ some '/' ∧
    sampleItem.id.head? ≠ some '/' ∧
    ((write_item "out".data sampleItem emptyFS).jsonFiles
        ("out".data ++ "/json/".data ++ sampleItem.id ++ '_' ::
          safe_slug sampleItem.title ++ ".json".data) = some sampleItem ∧
    (∀ q, q ≠ "out".data ++ "/json/".data ++ sampleItem.id ++ '_' ::
          safe_slug sampleItem.title ++ ".json".data →
      (write_item "out".data sampleItem emptyFS).jsonFiles q = emptyFS.jsonFiles q) ∧
    (write_item "out".data sampleItem emptyFS).txtFiles
        ("out".data ++ "/txt/".data ++ sampleItem.id ++ '_' ::
          safe_slug sampleItem.title ++ ".txt".data)
      = some (sampleItem.fulltext ++ ['\n']) ∧
    (∀ q, q ≠ "out".data ++ "/txt/".data ++ sampleItem.id ++ '_' ::
          safe_slug sampleItem.title ++ ".txt".data →
      (write_item "out".data sampleItem emptyFS).txtFiles q = emptyFS.txtFiles q) ∧
    (write_item "out".data sampleItem emptyFS).jsonl
        ("out".data ++ "/moe_idioms.jsonl".data)
      = emptyFS.jsonl ("out".data ++ "/moe_idioms.jsonl".data) ++ [sampleItem] ∧
    (∀ q, q ≠ "out".data ++ "/moe_idioms.jsonl".data →
      (write_item "out".data sampleItem emptyFS).jsonl q = emptyFS.jsonl q)) :=
  ⟨by decide, by decide, by decide,
    c3_write_item_three_forms "out".data sampleItem emptyFS (by decide) (by decide)
      (by decide)⟩

/-- Unfolding lemma for `runSubSpec` at a cons. -/
theorem runSubSpec_cons (wsP pre post : Char → Bool) (cond : Str → Bool)
    (repl : Str) (c : Char) (rest : Str) :
    runSubSpec wsP pre post cond repl (c :: rest)
      = if pre c then c :: runSubSpecTail wsP pre post cond repl rest
        else c :: runSubSpec wsP pre post cond repl rest := by
  rw [runSubSpec, runSubSpecTail]
  by_cases hp : pre c = true
  · simp only [hp, if_true]
    by_cases hc : (cond (rest.takeWhile wsP) && headSat post (rest.dropWhile wsP)) = true
    · simp [hc]
    · simp [hc]
  · simp [hp]

/-- The scanner agrees with the run-wise description, for a pattern with a
trailing class (`endOk = false`), whenever the whitespace class and the
`pre` class are disjoint.  The second conjunct generalises over the
whitespace already buffered when the scanner is mid-run with a `pre`
character behind it. -/
theorem runSubGo_eq_spec (wsP pre post : Char → Bool) (cond : Str → Bool)
    (repl : Str) (hw : ∀ c, wsP c = true → pre c = false) :
    ∀ s : Str,
      (∀ pending, runSubGo wsP pre post cond repl false false pending s
          = pending ++ runSubSpec wsP pre post cond repl s)
      ∧ (∀ pending, runSubGo wsP pre post cond repl false true pending s
          = if cond (pending ++ s.takeWhile wsP)
                && headSat post (s.dropWhile wsP) then
              repl ++ runSubSpec wsP pre post cond repl (s.dropWhile wsP)
            else pending ++ runSubSpec wsP pre post cond repl s) := by
  intro s
  induction s with
  | nil =>
      constructor
      · intro pending
        simp [runSubGo, runSubSpec]
      · intro pending
        simp [runSubGo, runSubSpec, headSat]
  | cons c rest ih =>
      obtain ⟨ihA, ihB⟩ := ih
      by_cases hws : wsP c = true
      · have hpre : pre c = false := hw c hws
        constructor
        · intro pending
          rw [show runSubGo wsP pre post cond repl false false pending (c :: rest)
              = runSubGo wsP pre post cond repl false false (pending ++ [c]) rest from by
            simp [runSubGo, hws]]
          rw [ihA, runSubSpec_cons]
          simp [hpre]
        · intro pending
          rw [show runSubGo wsP pre post cond repl false true pending (c :: rest)
              = runSubGo wsP pre post cond repl false true (pending ++ [c]) rest from by
            simp [runSubGo, hws]]
          rw [ihB]
          rw [List.takeWhile_cons_of_pos hws, List.dropWhile_cons_of_pos hws]
          rw [runSubSpec_cons]
          simp [hpre]
      · have hws' : wsP c = false := by
          cases hq : wsP c
          · rfl
          · exact absurd hq hws
        constructor
        · intro pending
          rw [show runSubGo wsP pre post cond repl false false pending (c :: rest)
              = pending ++ c :: runSubGo wsP pre post cond repl false (pre c) [] rest from by
            simp [runSubGo, hws']]
          rw [runSubSpec_cons]
          by_cases hp : pre c = true
          · rw [hp, ihB []]
            simp [runSubSpecTail]
          · have hp' : pre c = false := by
              cases hq : pre c
              · rfl
              · exact absurd hq hp
            rw [hp', ihA []]
            simp
        · intro pending
          rw [List.takeWhile_cons_of_neg hws, List.dropWhile_cons_of_neg hws]
          by_cases hmatch : (post c && cond pending) = true
          · have hpost : post c = true := by
              cases hq : post c
              · rw [hq] at hmatch; simp at hmatch
              · rfl
            have hcond : cond pending = true := by
              cases hq : cond pending
              · rw [hq] at hmatch; simp at hmatch
              · rfl
            rw [show runSubGo wsP pre post cond repl false true pending (c :: rest)
                = repl ++ c :: runSubGo wsP pre post cond repl false (pre c) [] rest from by
              simp [runSubGo, hws', hpost, hcond]]
            have hrhs : (cond (pending ++ []) && headSat post (c :: rest)) = true := by
              simp [headSat, hpost, hcond]
            rw [hrhs, if_pos rfl, runSubSpec_cons]
            by_cases hp : pre c = true
            · rw [hp, ihB []]
              simp [runSubSpecTail]
            · have hp' : pre c = false := by
                cases hq : pre c
                · rfl
                · exact absurd hq hp
              rw [hp', ihA []]
              simp
          · have hmatch' : (post c && cond pending) = false := by
              cases hq : (post c && cond pending)
              · rfl
              · exact absurd hq hmatch
            rw [show runSubGo wsP pre post cond repl false true pending (c :: rest)
                = pending ++ c :: runSubGo wsP pre post cond repl false (pre c) [] rest from by
              simp [runSubGo, hws']
              intro h1 h2
              rw [h1, h2] at hmatch'
              simp at hmatch']
            have hrhs : (cond (pending ++ []) && headSat post (c :: rest)) = false := by
              simp only [List.append_nil, headSat]
              rw [Bool.and_comm]
              exact hmatch'
            rw [hrhs]
            simp only [Bool.false_eq_true, if_false]
            rw [runSubSpec_cons]
            by_cases hp : pre c = true
            · rw [hp, ihB []]
              simp [runSubSpecTail]
            · have hp' : pre c = false := by
                cases hq : pre c
                · rfl
                · exact absurd hq hp
              rw [hp', ihA []]
              simp

/-- Whitespace is never a bopomofo character. -/
theorem pySpace_not_bpmf (c : Char) (h : isPySpace c = true) : isBPMF c = false := by
  rw [Bool.eq_false_iff]
  intro hb
  unfold isPySpace at h
  unfold isBPMF at hb
  simp only [Bool.or_eq_true, Bool.and_eq_true, beq_iff_eq, decide_eq_true_eq] at h hb
  omega

/-- Whitespace is never a CJK character or a closing bracket. -/
theorem pySpace_not_cjkOrRBracket (c : Char) (h : isPySpace c = true) :
    isCjkOrRBracket c = false := by
  rw [Bool.eq_false_iff]
  intro hb
  unfold isPySpace at h
  unfold isCjkOrRBracket isCJK at hb
  simp only [Bool.or_eq_true, Bool.and_eq_true, beq_iff_eq, decide_eq_true_eq] at h hb
  rcases hb with hb | hb
  · omega
  · rw [hb] at h
    simp at h

/-- Claim C5.  `condense_zhuyin` removes exactly the whitespace runs that
lie strictly between two bopomofo characters and preserves every other
character in order: it equals the run-wise description. -/
theorem c5_condense_zhuyin_removes_flanked_runs (s : Str) :
    condense_zhuyin s = condenseZhuyinSpec s := by
  unfold condense_zhuyin condenseZhuyinSpec
  by_cases h : s = []
  · rw [if_pos h, h, runSubSpec]
  · rw [if_neg h]
    have := (runSubGo_eq_spec isPySpace isBPMF isBPMF (fun ws => !ws.isEmpty) []
      pySpace_not_bpmf s).1 []
    rw [this]
    simp

/-- Members of a collapsed string come from the input or are the collapse
character. -/
theorem classRunsGo_mem (cls : Char → Bool) (y : Char) :
    ∀ (s : Str) (b : Bool) (x : Char), x ∈ classRunsGo cls y b s → x = y ∨ x ∈ s := by
  intro s
  induction s with
  | nil => intro b x hx; simp [classRunsGo] at hx
  | cons c rest ih =>
      intro b x hx
      by_cases hc : cls c = true
      · cases b with
        | true =>
            simp only [classRunsGo, hc, if_true] at hx
            rcases ih true x hx with h | h
            · exact Or.inl h
            · exact Or.inr (List.mem_cons_of_mem c h)
        | false =>
            simp only [classRunsGo, hc, if_true] at hx
            rcases List.mem_cons.mp hx with h | h
            · exact Or.inl h
            · rcases ih true x h with h2 | h2
              · exact Or.inl h2
              · exact Or.inr (List.mem_cons_of_mem c h2)
      · have hc' : cls c = false := by
          cases hq : cls c
          · rfl
          · exact absurd hq hc
        simp only [classRunsGo, hc', Bool.false_eq_true, if_false] at hx
        rcases List.mem_cons.mp hx with h | h
        · exact Or.inr (h ▸ List.mem_cons_self c rest)
        · rcases ih false x h with h2 | h2
          · exact Or.inl h2
          · exact Or.inr (List.mem_cons_of_mem c h2)

/-- Claim C6.  `newline_to_cjk_comma` equals the composition of the three
described passes — replace each newline-containing whitespace run between a
CJK-or-`]` character and a CJK-or-opening-quote character by a fullwidth
comma (the run-wise description), delete the remaining newlines outright,
collapse runs of fullwidth commas — and its output never contains a
newline. -/
theorem c6_newline_to_cjk_comma_passes (s : Str) :
    newline_to_cjk_comma s
        = collapseRuns '，'
            ((runSubSpec isPySpace isCjkOrRBracket isCjkOrOpen hasNl ['，'] s).filter
              (fun c => !(c == '\n')))
      ∧ ¬ '\n' ∈ newline_to_cjk_comma s := by
  have heq : newline_to_cjk_comma s
      = collapseRuns '，'
          ((runSubSpec isPySpace isCjkOrRBracket isCjkOrOpen hasNl ['，'] s).filter
            (fun c => !(c == '\n'))) := by
    unfold newline_to_cjk_comma
    by_cases h : s = []
    · rw [if_pos h, h, runSubSpec]
      rfl
    · rw [if_neg h]
      have := (runSubGo_eq_spec isPySpace isCjkOrRBracket isCjkOrOpen hasNl ['，']
        pySpace_not_cjkOrRBracket s).1 []
      rw [this]
      simp
  refine ⟨heq, ?_⟩
  rw [heq]
  intro hmem
  rcases classRunsGo_mem _ _ _ _ _ hmem with h | h
  · exact absurd h (by decide)
  · have := List.mem_filter.mp h
    simp at this

/-! ### Properties of `safe_slug` (claim C9) -/

/-- Characters of a class-collapsed string: each is the replacement
character or a kept input character outside the class. -/
theorem classRunsGo_mem_strong (cls : Char → Bool) (y : Char) :
    ∀ (s : Str) (b : Bool) (x : Char),
      x ∈ classRunsGo cls y b s → x = y ∨ (x ∈ s ∧ cls x = false) := by
  intro s
  induction s with
  | nil => intro b x hx; simp [classRunsGo] at hx
  | cons c rest ih =>
      intro b x hx
      by_cases hc : cls c = true
      · cases b with
        | true =>
            simp only [classRunsGo, hc, if_true] at hx
            rcases ih true x hx with h | ⟨h1, h2⟩
            · exact Or.inl h
            · exact Or.inr ⟨List.mem_cons_of_mem c h1, h2⟩
        | false =>
            simp only [classRunsGo, hc, if_true] at hx
            rcases List.mem_cons.mp hx with h | h
            · exact Or.inl h
            · rcases ih true x h with h2 | ⟨h3, h4⟩
              · exact Or.inl h2
              · exact Or.inr ⟨List.mem_cons_of_mem c h3, h4⟩
      · have hc' : cls c = false := by
          cases hq : cls c
          · rfl
          · exact absurd hq hc
        simp only [classRunsGo, hc', Bool.false_eq_true, if_false] at hx
        rcases List.mem_cons.mp hx with h | h
        · exact Or.inr ⟨h ▸ List.mem_cons_self c rest, h ▸ hc'⟩
        · rcases ih false x h with h2 | ⟨h3, h4⟩
          · exact Or.inl h2
          · exact Or.inr ⟨List.mem_cons_of_mem c h3, h4⟩

/-- After the scanner has just emitted the replacement character, the next
emitted character is outside the class. -/
theorem classRunsGo_head_true (cls : Char → Bool) (y : Char) :
    ∀ (s : Str) (d : Char), (classRunsGo cls y true s).head? = some d → cls d = false := by
  intro s
  induction s with
  | nil => intro d hd; simp [classRunsGo] at hd
  | cons c rest ih =>
      intro d hd
      by_cases hc : cls c = true
      · rw [show classRunsGo cls y true (c :: rest) = classRunsGo cls y true rest from by
          simp [classRunsGo, hc]] at hd
        exact ih d hd
      · have hc' : cls c = false := by
          cases hq : cls c
          · rfl
          · exact absurd hq hc
        rw [show classRunsGo cls y true (c :: rest) = c :: classRunsGo cls y false rest from by
          simp [classRunsGo, hc']] at hd
        simp at hd
        rw [← hd]
        exact hc'

/-- A class-collapsed string never has two adjacent class characters. -/
theorem classRunsGo_chain (cls : Char → Bool) (y : Char) :
    ∀ (s : Str) (b : Bool),
      List.Chain' (fun a b => ¬(cls a = true ∧ cls b = true)) (classRunsGo cls y b s) := by
  intro s
  induction s with
  | nil => intro b; simp [classRunsGo]
  | cons c rest ih =>
      intro b
      by_cases hc : cls c = true
      · cases b with
        | true =>
            rw [show classRunsGo cls y true (c :: rest) = classRunsGo cls y true rest from by
              simp [classRunsGo, hc]]
            exact ih true
        | false =>
            rw [show classRunsGo cls y false (c :: rest)
                = y :: classRunsGo cls y true rest from by simp [classRunsGo, hc]]
            refine List.chain'_cons'.mpr ⟨?_, ih true⟩
            intro d hd
            intro ⟨_, hd2⟩
            rw [classRunsGo_head_true cls y rest d hd] at hd2
            exact Bool.false_ne_true hd2
      · have hc' : cls c = false := by
          cases hq : cls c
          · rfl
          · exact absurd hq hc
        rw [show classRunsGo cls y b (c :: rest) = c :: classRunsGo cls y false rest from by
          simp [classRunsGo, hc']]
        refine List.chain'_cons'.mpr ⟨?_, ih false⟩
        intro d hd
        intro ⟨hd1, _⟩
        rw [hc'] at hd1
        exact Bool.false_ne_true hd1

/-- Dropping a while-prefix preserves adjacent-pair invariants. -/
theorem chain_dropWhile (R : Char → Char → Prop) (p : Char → Bool) :
    ∀ l : Str, List.Chain' R l → List.Chain' R (l.dropWhile p) := by
  intro l
  induction l with
  | nil => intro h; simpa using h
  | cons c rest ih =>
      intro h
      by_cases hp : p c = true
      · rw [List.dropWhile_cons_of_pos hp]
        exact ih (List.chain'_cons'.mp h).2
      · rw [List.dropWhile_cons_of_neg hp]
        exact h

/-- The head surviving a while-drop fails the predicate. -/
theorem head_dropWhile_false (p : Char → Bool) :
    ∀ (l : Str) (d : Char), (l.dropWhile p).head? = some d → p d = false := by
  intro l
  induction l with
  | nil => intro d hd; simp at hd
  | cons c rest ih =>
      intro d hd
      by_cases hp : p c = true
      · rw [List.dropWhile_cons_of_pos hp] at hd
        exact ih d hd
      · rw [List.dropWhile_cons_of_neg hp] at hd
        simp at hd
        rw [← hd]
        cases hq : p c
        · rfl
        · exact absurd hq hp

/-- Members survive a while-drop into the original list. -/
theorem mem_dropWhile (p : Char → Bool) (l : Str) (x : Char)
    (hx : x ∈ l.dropWhile p) : x ∈ l := by
  have h : l.takeWhile p ++ l.dropWhile p = l := List.takeWhile_append_dropWhile p l
  rw [← h]
  exact List.mem_append_right _ hx

/-- Claim C9.  `safe_slug` always returns a nonempty file-name-safe string:
every output character is a word character, a hyphen or a CJK character
(an underscore being a word character), no two underscores are adjacent,
the output neither starts nor ends with an underscore, and an empty or
fully-collapsed input yields the literal `NA`. -/
theorem c9_safe_slug_filename_safe (s : Str) :
    safe_slug s ≠ [] ∧
    (∀ c ∈ safe_slug s, isWordChar c = true ∨ c = '-' ∨ isCJK c = true) ∧
    List.Chain' (fun a b => ¬(a = '_' ∧ b = '_')) (safe_slug s) ∧
    (safe_slug s).head? ≠ some '_' ∧
    (safe_slug s).getLast? ≠ some '_' ∧
    ((s = [] ∨ ∀ c ∈ pyStrip s, (isWordChar c || c == '-' || isCJK c) = true → c = '_') →
      safe_slug s = "NA".data) := by
  have hna1 : ("NA".data : Str) ≠ [] := by decide
  have hna2 : ∀ c ∈ ("NA".data : Str), isWordChar c = true ∨ c = '-' ∨ isCJK c = true := by
    decide
  have hna3 : List.Chain' (fun a b => ¬(a = '_' ∧ b = '_')) ("NA".data : Str) := by
    rw [show ("NA".data : Str) = ['N', 'A'] from rfl]
    exact List.chain'_pair.mpr (by decide)
  have hna4 : ("NA".data : Str).head? ≠ some '_' := by decide
  have hna5 : ("NA".data : Str).getLast? ≠ some '_' := by decide
  by_cases hs : s = []
  · have hval : safe_slug s = "NA".data := by rw [hs]; rfl
    rw [hval]
    exact ⟨hna1, hna2, hna3, hna4, hna5, fun _ => rfl⟩
  · have hdef : safe_slug s
        = (if pyStripChar '_' (collapseRuns '_' (classRunsGo
              (fun c => !(isWordChar c || c == '-' || isCJK c)) '_' false (pyStrip s))) = []
           then "NA".data
           else pyStripChar '_' (collapseRuns '_' (classRunsGo
              (fun c => !(isWordChar c || c == '-' || isCJK c)) '_' false (pyStrip s)))) := by
      unfold safe_slug
      rw [if_neg hs]
    by_cases h4 : pyStripChar '_' (collapseRuns '_' (classRunsGo
        (fun c => !(isWordChar c || c == '-' || isCJK c)) '_' false (pyStrip s))) = []
    · rw [hdef, if_pos h4]
      exact ⟨hna1, hna2, hna3, hna4, hna5, fun _ => rfl⟩
    · rw [hdef, if_neg h4]
      -- abbreviations for the pipeline stages
      have hmem3 : ∀ x ∈ collapseRuns '_' (classRunsGo
          (fun c => !(isWordChar c || c == '-' || isCJK c)) '_' false (pyStrip s)),
          isWordChar x = true ∨ x = '-' ∨ isCJK x = true := by
        intro x hx
        rcases classRunsGo_mem_strong _ _ _ _ _ hx with h | ⟨h1, _⟩
        · left
          rw [h]
          decide
        · rcases classRunsGo_mem_strong _ _ _ _ _ h1 with h2 | ⟨_, h3⟩
          · left
            rw [h2]
            decide
          · have : (isWordChar x || x == '-' || isCJK x) = true := by
              rcases hq : (isWordChar x || x == '-' || isCJK x) with _ | _
              · rw [hq] at h3
                simp at h3
              · rfl
            simp only [Bool.or_eq_true, beq_iff_eq] at this
            rcases this with (h | h) | h
            · exact Or.inl h
            · exact Or.inr (Or.inl h)
            · exact Or.inr (Or.inr h)
      have hchain3 : List.Chain' (fun a b => ¬(a = '_' ∧ b = '_'))
          (collapseRuns '_' (classRunsGo
            (fun c => !(isWordChar c || c == '-' || isCJK c)) '_' false (pyStrip s))) := by
        have := classRunsGo_chain (fun c => c == '_') '_'
          (classRunsGo (fun c => !(isWordChar c || c == '-' || isCJK c)) '_' false
            (pyStrip s)) false
        refine List.Chain'.imp ?_ this
        intro a b h hab
        exact h ⟨by rw [hab.1]; rfl, by rw [hab.2]; rfl⟩
      -- transport through pyStripChar
      have hrev : ∀ (R : Char → Char → Prop), (∀ a b, R a b → R b a) →
          ∀ l : Str, List.Chain' R l → List.Chain' R l.reverse := by
        intro R hsym l hl
        rw [List.chain'_reverse]
        exact List.Chain'.imp (fun a b h => hsym a b h) hl
      constructor
      · exact h4
      constructor
      · intro c hc
        unfold pyStripChar at hc
        have step1 := mem_dropWhile _ _ _ (List.mem_reverse.mp hc)
        have step2 := mem_dropWhile _ _ _ (List.mem_reverse.mp step1)
        exact hmem3 c step2
      constructor
      · have c1 := chain_dropWhile _ (fun c => c == '_') _ hchain3
        have c2 := hrev _ (fun a b h hab => h ⟨hab.2, hab.1⟩) _ c1
        have c3 := chain_dropWhile _ (fun c => c == '_') _ c2
        have c4 := hrev _ (fun a b h hab => h ⟨hab.2, hab.1⟩) _ c3
        unfold pyStripChar
        exact c4
      constructor
      · -- head of the stripped slug
        intro hhead
        have hz : ((collapseRuns '_' (classRunsGo
              (fun c => !(isWordChar c || c == '-' || isCJK c)) '_' false
              (pyStrip s))).dropWhile (fun c => c == '_')).reverse.dropWhile
              (fun c => c == '_') ≠ [] := by
          intro hzn
          apply h4
          unfold pyStripChar
          rw [hzn]
          rfl
        set Y := (collapseRuns '_' (classRunsGo
            (fun c => !(isWordChar c || c == '-' || isCJK c)) '_' false
            (pyStrip s))).dropWhile (fun c => c == '_') with hY
        set Z := Y.reverse.dropWhile (fun c => c == '_') with hZ
        have hs4 : pyStripChar '_' (collapseRuns '_' (classRunsGo
            (fun c => !(isWordChar c || c == '-' || isCJK c)) '_' false
            (pyStrip s))) = Z.reverse := rfl
        rw [hs4] at hhead
        rw [List.head?_reverse] at hhead
        -- Z.getLast? = Y.reverse.getLast? = Y.head?, which fails the strip predicate
        have hYrev : Y.reverse = Y.reverse.takeWhile (fun c => c == '_') ++ Z :=
          (List.takeWhile_append_dropWhile _ _).symm
        have hYlast : Y.reverse.getLast? = Z.getLast?.or
            ((Y.reverse.takeWhile (fun c => c == '_')).getLast?) := by
          conv_lhs => rw [hYrev]
          rw [List.getLast?_append]
        have hZlast : Z.getLast? = some '_' := hhead
        have hYlast2 : Y.reverse.getLast? = some '_' := by
          rw [hYlast, hZlast]
          rfl
        rw [List.getLast?_reverse] at hYlast2
        have := head_dropWhile_false (fun c => c == '_') _ _ hYlast2
        simp at this
      · constructor
        · -- last of the stripped slug
          intro hlast
          have hs4 : pyStripChar '_' (collapseRuns '_' (classRunsGo
              (fun c => !(isWordChar c || c == '-' || isCJK c)) '_' false
              (pyStrip s)))
              = (((collapseRuns '_' (classRunsGo
                  (fun c => !(isWordChar c || c == '-' || isCJK c)) '_' false
                  (pyStrip s))).dropWhile (fun c => c == '_')).reverse.dropWhile
                  (fun c => c == '_')).reverse := rfl
          rw [hs4, List.getLast?_reverse] at hlast
          have := head_dropWhile_false (fun c => c == '_') _ _ hlast
          simp at this
        · -- the collapsed-to-nothing case cannot arise here
          intro hred
          exfalso
          rcases hred with h | hall
          · exact hs h
          · apply h4
            have hall2 : ∀ x ∈ collapseRuns '_' (classRunsGo
                (fun c => !(isWordChar c || c == '-' || isCJK c)) '_' false
                (pyStrip s)), (fun c => c == '_') x = true := by
              intro x hx
              rcases classRunsGo_mem_strong _ _ _ _ _ hx with h | ⟨h1, _⟩
              · rw [h]; rfl
              · rcases classRunsGo_mem_strong _ _ _ _ _ h1 with h2 | ⟨h3, h5⟩
                · rw [h2]; rfl
                · have hallow : (isWordChar x || x == '-' || isCJK x) = true := by
                    rcases hq : (isWordChar x || x == '-' || isCJK x) with _ | _
                    · rw [hq] at h5
                      simp at h5
                    · rfl
                  have := hall x h3 hallow
                  rw [this]
                  rfl
            have hdw : (collapseRuns '_' (classRunsGo
                (fun c => !(isWordChar c || c == '-' || isCJK c)) '_' false
                (pyStrip s))).dropWhile (fun c => c == '_') = [] :=
              List.dropWhile_eq_nil_iff.mpr hall2
            unfold pyStripChar
            rw [hdw]
            rfl

/-! ### Idempotence of `norm_space` (claim C10)

After one pass, every horizontal-class character is a single ASCII space
(`nsCollapseH` leaves no tab, no-break space or zero-width space and no two
adjacent class characters), no whitespace character is followed within its
run by a newline (`nsDropBeforeNl`), and the ends are stripped; each pass
is the identity on strings with its normal form, so a second application
changes nothing. -/

/-- Characters kept by the before-newline drop come from the input. -/
theorem mem_nsDrop : ∀ (t : Str) (x : Char), x ∈ nsDropBeforeNl t → x ∈ t := by
  intro t
  induction t with
  | nil => intro x hx; simpa [nsDropBeforeNl] using hx
  | cons c rest ih =>
      intro x hx
      by_cases hdel : (isPySpace c && (rest.takeWhile isPySpace).contains '\n') = true
      · rw [show nsDropBeforeNl (c :: rest) = nsDropBeforeNl rest from by
          simp only [nsDropBeforeNl]
          rw [if_pos hdel]] at hx
        exact List.mem_cons_of_mem c (ih x hx)
      · rw [show nsDropBeforeNl (c :: rest) = c :: nsDropBeforeNl rest from by
          simp only [nsDropBeforeNl]
          rw [if_neg hdel]] at hx
        rcases List.mem_cons.mp hx with h | h
        · exact h ▸ List.mem_cons_self c rest
        · exact List.mem_cons_of_mem c (ih x h)

/-- When the leading whitespace run holds no newline, the before-newline
drop keeps the head. -/
theorem nsDrop_head_of_no_nl (t : Str)
    (h : (t.takeWhile isPySpace).contains '\n' = false) :
    (nsDropBeforeNl t).head? = t.head? := by
  cases t with
  | nil => rfl
  | cons c rest =>
      by_cases hws : isPySpace c = true
      · have htw : (c :: rest).takeWhile isPySpace = c :: rest.takeWhile isPySpace :=
          List.takeWhile_cons_of_pos hws
        rw [htw] at h
        simp only [List.contains_cons, Bool.or_eq_false_iff] at h
        have hdel : (isPySpace c && (rest.takeWhile isPySpace).contains '\n') = false := by
          rw [h.2]
          simp
        rw [show nsDropBeforeNl (c :: rest) = c :: nsDropBeforeNl rest from by
          simp only [nsDropBeforeNl]
          rw [if_neg]
          rw [hdel]
          simp]
        rfl
      · have hdel : (isPySpace c && (rest.takeWhile isPySpace).contains '\n') = false := by
          cases hq : isPySpace c
          · simp
          · exact absurd hq hws
        rw [show nsDropBeforeNl (c :: rest) = c :: nsDropBeforeNl rest from by
          simp only [nsDropBeforeNl]
          rw [if_neg]
          rw [hdel]
          simp]
        rfl

/-- Reversal transports an adjacent-pair invariant to its flip. -/
theorem chain_reverse_flip (R : Char → Char → Prop) (l : Str)
    (h : List.Chain' R l) : List.Chain' (flip R) l.reverse := by
  rw [show flip R = flip R from rfl]
  exact (List.chain'_reverse).mpr h

/-- Stripping both ends preserves any adjacent-pair invariant. -/
theorem chain_pyStrip (R : Char → Char → Prop) (t : Str)
    (h : List.Chain' R t) : List.Chain' R (pyStrip t) := by
  unfold pyStrip
  have h1 := chain_dropWhile R isPySpace t h
  have h2 := chain_reverse_flip R _ h1
  have h3 := chain_dropWhile (flip R) isPySpace _ h2
  have h4 := chain_reverse_flip (flip R) _ h3
  exact h4

/-- Characters surviving the strip come from the input. -/
theorem mem_pyStrip (t : Str) (x : Char) (hx : x ∈ pyStrip t) : x ∈ t := by
  unfold pyStrip at hx
  have s1 := List.mem_reverse.mp hx
  have s2 := mem_dropWhile _ _ _ s1
  have s3 := List.mem_reverse.mp s2
  exact mem_dropWhile _ _ _ s3

/-- The collapse scanner is the identity on a string already in normal
form: no class character other than the replacement, no two adjacent class
characters. -/
theorem classRunsGo_id (cls : Char → Bool) (y : Char) (hy : cls y = true) :
    ∀ t : Str, (∀ x ∈ t, cls x = true → x = y) →
      List.Chain' (fun a b => ¬(cls a = true ∧ cls b = true)) t →
      classRunsGo cls y false t = t := by
  intro t
  induction t with
  | nil => intro _ _; rfl
  | cons c rest ih =>
      intro hmem hch
      have hch' := (List.chain'_cons'.mp hch).2
      have hhead := (List.chain'_cons'.mp hch).1
      by_cases hc : cls c = true
      · have hcy : c = y := hmem c (List.mem_cons_self c rest) hc
        rw [show classRunsGo cls y false (c :: rest) = y :: classRunsGo cls y true rest from by
          simp [classRunsGo, hc]]
        rw [hcy]
        cases rest with
        | nil => rfl
        | cons d r =>
            have hd : cls d = false := by
              cases hq : cls d
              · rfl
              · exact absurd ⟨hc, hq⟩ (hhead d rfl)
            rw [show classRunsGo cls y true (d :: r) = d :: classRunsGo cls y false r from by
              simp [classRunsGo, hd]]
            have := ih (fun x hx h => hmem x (List.mem_cons_of_mem c hx) h) hch'
            rw [show classRunsGo cls y false (d :: r) = d :: classRunsGo cls y false r from by
              simp [classRunsGo, hd]] at this
            rw [this]
      · have hc' : cls c = false := by
          cases hq : cls c
          · rfl
          · exact absurd hq hc
        rw [show classRunsGo cls y false (c :: rest) = c :: classRunsGo cls y false rest from by
          simp [classRunsGo, hc']]
        rw [ih (fun x hx h => hmem x (List.mem_cons_of_mem c hx) h) hch']

/-- Bool containment agrees with membership for characters. -/
theorem contains_iff_mem (l : Str) (a : Char) : l.contains a = true ↔ a ∈ l := by
  simp

/-- The before-newline drop preserves the collapse normal form: with every
horizontal-class character a space, it creates no new adjacency of class
characters (deletions in a run are closed to the left, so the kept part of
a run is contiguous). -/
theorem nsDrop_chain_H (t : Str)
    (hmem : ∀ x ∈ t, isHSpace x = true → x = ' ')
    (hch : List.Chain' (fun a b => ¬(isHSpace a = true ∧ isHSpace b = true)) t) :
    List.Chain' (fun a b => ¬(isHSpace a = true ∧ isHSpace b = true))
      (nsDropBeforeNl t) := by
  induction t with
  | nil => simpa [nsDropBeforeNl] using hch
  | cons c rest ih =>
      have hch' := (List.chain'_cons'.mp hch).2
      have hhead := (List.chain'_cons'.mp hch).1
      have hmem' : ∀ x ∈ rest, isHSpace x = true → x = ' ' :=
        fun x hx h => hmem x (List.mem_cons_of_mem c hx) h
      by_cases hdel : (isPySpace c && (rest.takeWhile isPySpace).contains '\n') = true
      · rw [show nsDropBeforeNl (c :: rest) = nsDropBeforeNl rest from by
          simp only [nsDropBeforeNl]
          rw [if_pos hdel]]
        exact ih hmem' hch'
      · rw [show nsDropBeforeNl (c :: rest) = c :: nsDropBeforeNl rest from by
          simp only [nsDropBeforeNl]
          rw [if_neg hdel]]
        refine List.chain'_cons'.mpr ⟨?_, ih hmem' hch'⟩
        intro d hd
        intro ⟨hc, hdH⟩
        have hcsp : c = ' ' := hmem c (List.mem_cons_self c rest) hc
        have hws : isPySpace c = true := by rw [hcsp]; decide
        have hnn : (rest.takeWhile isPySpace).contains '\n' = false := by
          cases hq : (rest.takeWhile isPySpace).contains '\n'
          · rfl
          · exfalso
            apply hdel
            rw [hws, hq]
            rfl
        have hh := nsDrop_head_of_no_nl rest hnn
        rw [hh] at hd
        cases rest with
        | nil => simp at hd
        | cons e r =>
            have hde : d = e := by
              have := hd
              simp at this
              exact this.symm
            exact hhead e rfl ⟨hc, hde ▸ hdH⟩

/-- In a string with no whitespace character followed by a newline in its
run, the whitespace prefix after any whitespace character holds no
newline. -/
theorem no_nl_in_ws_prefix :
    ∀ (rest : Str) (c : Char),
      List.Chain' (fun a b => ¬(isPySpace a = true ∧ b = '\n')) (c :: rest) →
      isPySpace c = true →
      (rest.takeWhile isPySpace).contains '\n' = false := by
  intro rest
  induction rest with
  | nil => intro c _ _; rfl
  | cons d r ih =>
      intro c hch hws
      have hhead := (List.chain'_cons'.mp hch).1
      have hch' := (List.chain'_cons'.mp hch).2
      by_cases hd : isPySpace d = true
      · rw [List.takeWhile_cons_of_pos hd]
        have hdn : ¬d = '\n' := fun h => hhead d rfl ⟨hws, h⟩
        have hrec := ih d hch' hd
        have hnotmem : ¬ '\n' ∈ (d :: r.takeWhile isPySpace) := by
          intro hmem2
          rcases List.mem_cons.mp hmem2 with h | h
          · exact hdn h.symm
          · have := (contains_iff_mem _ _).mpr h
            rw [hrec] at this
            exact Bool.false_ne_true this
        cases hq : (d :: r.takeWhile isPySpace).contains '\n'
        · rfl
        · exact absurd ((contains_iff_mem _ _).mp hq) hnotmem
      · rw [List.takeWhile_cons_of_neg hd]
        rfl

/-- The before-newline drop is the identity on its normal form. -/
theorem nsDrop_id (t : Str)
    (hch : List.Chain' (fun a b => ¬(isPySpace a = true ∧ b = '\n')) t) :
    nsDropBeforeNl t = t := by
  induction t with
  | nil => rfl
  | cons c rest ih =>
      have hch' := (List.chain'_cons'.mp hch).2
      have hdel : (isPySpace c && (rest.takeWhile isPySpace).contains '\n') = false := by
        by_cases hws : isPySpace c = true
        · rw [hws, no_nl_in_ws_prefix rest c hch hws]
          rfl
        · cases hq : isPySpace c
          · rfl
          · exact absurd hq hws
      rw [show nsDropBeforeNl (c :: rest) = c :: nsDropBeforeNl rest from by
        simp only [nsDropBeforeNl]
        rw [if_neg]
        rw [hdel]
        simp]
      rw [ih hch']

/-- The before-newline drop establishes its own normal form. -/
theorem nsDrop_chain_nl (t : Str) :
    List.Chain' (fun a b => ¬(isPySpace a = true ∧ b = '\n'))
      (nsDropBeforeNl t) := by
  induction t with
  | nil => simp [nsDropBeforeNl]
  | cons c rest ih =>
      by_cases hdel : (isPySpace c && (rest.takeWhile isPySpace).contains '\n') = true
      · rw [show nsDropBeforeNl (c :: rest) = nsDropBeforeNl rest from by
          simp only [nsDropBeforeNl]
          rw [if_pos hdel]]
        exact ih
      · rw [show nsDropBeforeNl (c :: rest) = c :: nsDropBeforeNl rest from by
          simp only [nsDropBeforeNl]
          rw [if_neg hdel]]
        refine List.chain'_cons'.mpr ⟨?_, ih⟩
        intro d hd
        intro ⟨hws, hdn⟩
        have hnn : (rest.takeWhile isPySpace).contains '\n' = false := by
          cases hq : (rest.takeWhile isPySpace).contains '\n'
          · rfl
          · exfalso
            apply hdel
            rw [hws, hq]
            rfl
        rw [nsDrop_head_of_no_nl rest hnn] at hd
        cases rest with
        | nil => simp at hd
        | cons e r =>
            have hde : d = e := by
              have h2 := hd
              simp at h2
              exact h2.symm
            have hen : e = '\n' := by rw [← hde]; exact hdn
            have hews : isPySpace e = true := by rw [hen]; decide
            have hein : '\n' ∈ (e :: r).takeWhile isPySpace := by
              rw [List.takeWhile_cons_of_pos hews, hen]
              exact List.mem_cons_self '\n' _
            have hcont : ((e :: r).takeWhile isPySpace).contains '\n' = true :=
              (contains_iff_mem _ _).mpr hein
            rw [hcont] at hnn
            exact Bool.noConfusion hnn

/-- A list whose head fails the predicate loses nothing to a while-drop. -/
theorem dropWhile_id_of_head (p : Char → Bool) (l : Str)
    (h : ∀ d, l.head? = some d → p d = false) : l.dropWhile p = l := by
  cases l with
  | nil => rfl
  | cons c rest =>
      exact List.dropWhile_cons_of_neg (by rw [h c rfl]; simp)

/-- Stripping both ends twice is stripping once. -/
theorem pyStrip_idem (t : Str) : pyStrip (pyStrip t) = pyStrip t := by
  by_cases hv : (t.dropWhile isPySpace).reverse.dropWhile isPySpace = []
  · have h1 : pyStrip t = [] := by
      unfold pyStrip
      rw [hv]
      rfl
    rw [h1]
    rfl
  · -- the last character of the inner drop is the head of the first drop
    have hlast : ((t.dropWhile isPySpace).reverse.dropWhile isPySpace).getLast?
        = (t.dropWhile isPySpace).head? := by
      have hsplit : (t.dropWhile isPySpace).reverse
          = (t.dropWhile isPySpace).reverse.takeWhile isPySpace
            ++ (t.dropWhile isPySpace).reverse.dropWhile isPySpace :=
        (List.takeWhile_append_dropWhile _ _).symm
      have h2 : (t.dropWhile isPySpace).reverse.getLast?
          = ((t.dropWhile isPySpace).reverse.dropWhile isPySpace).getLast?.or
            (((t.dropWhile isPySpace).reverse.takeWhile isPySpace).getLast?) := by
        conv_lhs => rw [hsplit]
        rw [List.getLast?_append]
      cases hq : ((t.dropWhile isPySpace).reverse.dropWhile isPySpace).getLast? with
      | none => exact absurd (List.getLast?_eq_none_iff.mp hq) hv
      | some z =>
          rw [hq] at h2
          have h3 : (t.dropWhile isPySpace).reverse.getLast?
              = (t.dropWhile isPySpace).head? := List.getLast?_reverse _
          rw [h2] at h3
          rw [show (some z).or ((t.dropWhile isPySpace).reverse.takeWhile
              isPySpace).getLast? = some z from rfl] at h3
          exact h3
    have hheadfail : ∀ d,
        (((t.dropWhile isPySpace).reverse.dropWhile isPySpace).reverse).head? = some d →
          isPySpace d = false := by
      intro d hd
      rw [List.head?_reverse, hlast] at hd
      exact head_dropWhile_false isPySpace t d hd
    show pyStrip (((t.dropWhile isPySpace).reverse.dropWhile isPySpace).reverse)
      = ((t.dropWhile isPySpace).reverse.dropWhile isPySpace).reverse
    unfold pyStrip
    rw [dropWhile_id_of_head _ _ hheadfail]
    rw [List.reverse_reverse]
    rw [dropWhile_id_of_head isPySpace ((t.dropWhile isPySpace).reverse.dropWhile isPySpace)
      (fun d hd => head_dropWhile_false isPySpace _ d hd)]

/-- Claim C10.  `norm_space` is idempotent: applying it twice gives the
same string as applying it once. -/
theorem c10_norm_space_idempotent (s : Str) :
    norm_space (norm_space s) = norm_space s := by
  have hout : ∀ u : Str, u ≠ [] →
      norm_space u = pyStrip (nsDropBeforeNl (nsCollapseH u)) := by
    intro u hu
    unfold norm_space
    rw [if_neg hu]
  by_cases hs : s = []
  · rw [hs]
    rfl
  · by_cases hx : norm_space s = []
    · rw [hx]
      rfl
    · -- the output of one pass is in normal form for all three passes
      have hmemH : ∀ x ∈ norm_space s, isHSpace x = true → x = ' ' := by
        intro x hx2 hH
        rw [hout s hs] at hx2
        have h1 := mem_pyStrip _ _ hx2
        have h2 := mem_nsDrop _ _ h1
        rcases classRunsGo_mem_strong isHSpace ' ' s false x h2 with h | ⟨_, h4⟩
        · exact h
        · rw [hH] at h4
          exact absurd h4 (by simp)
      have hchainH : List.Chain' (fun a b => ¬(isHSpace a = true ∧ isHSpace b = true))
          (norm_space s) := by
        rw [hout s hs]
        apply chain_pyStrip
        apply nsDrop_chain_H
        · intro x hx2 hH
          rcases classRunsGo_mem_strong isHSpace ' ' s false x hx2 with h | ⟨_, h4⟩
          · exact h
          · rw [hH] at h4
            exact absurd h4 (by simp)
        · exact classRunsGo_chain isHSpace ' ' s false
      have hchainNl : List.Chain' (fun a b => ¬(isPySpace a = true ∧ b = '\n'))
          (norm_space s) := by
        rw [hout s hs]
        apply chain_pyStrip
        exact nsDrop_chain_nl (nsCollapseH s)
      have e1 : nsCollapseH (norm_space s) = norm_space s :=
        classRunsGo_id isHSpace ' ' (by decide) (norm_space s) hmemH hchainH
      have e2 : nsDropBeforeNl (norm_space s) = norm_space s :=
        nsDrop_id (norm_space s) hchainNl
      have e3 : pyStrip (norm_space s) = norm_space s := by
        calc pyStrip (norm_space s)
            = pyStrip (pyStrip (nsDropBeforeNl (nsCollapseH s))) := by
              rw [hout s hs]
          _ = pyStrip (nsDropBeforeNl (nsCollapseH s)) :=
              pyStrip_idem (nsDropBeforeNl (nsCollapseH s))
          _ = norm_space s := (hout s hs).symm
      calc norm_space (norm_space s)
          = pyStrip (nsDropBeforeNl (nsCollapseH (norm_space s))) := hout _ hx
        _ = pyStrip (nsDropBeforeNl (norm_space s)) := by rw [e1]
        _ = pyStrip (norm_space s) := by rw [e2]
        _ = norm_space s := e3

/-- An empty or blank title reduces to fewer than two kept characters. -/
theorem title_clean_short_of_blank (t : Str) (h : t = [] ∨ pyStrip t = []) :
    (title_clean t).length < 2 := by
  have hstrip : pyStrip t = [] := by
    rcases h with h | h
    · rw [h]
      rfl
    · exact h
  unfold title_clean
  rw [hstrip]
  decide

/-- Claim C8.  `parse_idiom` raises `NotFound` exactly when the page has no
`#idiomTab` table, or the extracted title reduced to word/CJK characters
has fewer than two characters (which subsumes the empty-title check), or
the bopomofo and definition fields are both blank after stripping; in
every other case it returns a record — an `Item`, whose fields are exactly
the twenty-one keys of the Python dict, in order. -/
theorem c8_parse_idiom_notfound_iff (id_value : Str) (page : Page) :
    ((∃ e, parse_idiom id_value page = Except.error e) ↔
      (page.idiomTab = none ∨
        ∃ tab, page.idiomTab = some tab ∧
          ((title_clean (titleOfTab tab)).length < 2 ∨
            (pyStrip (bopomofoOfTab tab) = [] ∧ pyStrip (definitionOfTab tab) = [])))) ∧
    (¬(∃ e, parse_idiom id_value page = Except.error e) →
      ∃ it, parse_idiom id_value page = Except.ok it) := by
  constructor
  · obtain ⟨tabOpt⟩ := page
    cases tabOpt with
    | none =>
        constructor
        · intro _
          exact Or.inl rfl
        · intro _
          exact ⟨_, rfl⟩
    | some tab =>
        simp only [parse_idiom]
        constructor
        · intro ⟨e, he⟩
          refine Or.inr ⟨tab, rfl, ?_⟩
          by_cases h1 : titleOfTab tab = [] ∨ pyStrip (titleOfTab tab) = []
          · exact Or.inl (title_clean_short_of_blank _ h1)
          · rw [if_neg h1] at he
            by_cases h2 : (title_clean (titleOfTab tab)).length < 2
            · exact Or.inl h2
            · rw [if_neg h2] at he
              by_cases h3 : pyStrip (bopomofoOfTab tab) = []
                  ∧ pyStrip (definitionOfTab tab) = []
              · exact Or.inr h3
              · rw [if_neg h3] at he
                exact absurd he (by simp)
        · intro h
          rcases h with h | ⟨tab2, htab2, h⟩
          · simp at h
          · have htab : tab2 = tab := by
              have := htab2
              simp at this
              exact this.symm
            subst htab
            by_cases h1 : titleOfTab tab2 = [] ∨ pyStrip (titleOfTab tab2) = []
            · rw [if_pos h1]
              exact ⟨_, rfl⟩
            · rw [if_neg h1]
              rcases h with h2 | h3
              · rw [if_pos h2]
                exact ⟨_, rfl⟩
              · by_cases h2 : (title_clean (titleOfTab tab2)).length < 2
                · rw [if_pos h2]
                  exact ⟨_, rfl⟩
                · rw [if_neg h2, if_pos h3]
                  exact ⟨_, rfl⟩
  · intro h
    cases hres : parse_idiom id_value page with
    | error e => exact absurd ⟨e, hres⟩ h
    | ok it => exact ⟨it, rfl⟩
